import Mathlib

/-!
Verification of a small backtracking regular-expression engine
(pattern compiler + matcher, `src/app/main.py`).

The embedding mirrors the Python source:

* `parse_pattern` / `parse_alternatives` → `parsePattern` / `parseAltsF`
  (the index-based loop becomes structural recursion on the remaining
  characters, with a fuel argument standing for the strictly decreasing
  input index; fuel `length + 1` is always sufficient, see the lemmas);
* `token_matches_char` → `tokenMatchesChar` (Python's `str.isdigit` /
  `str.isalnum` are modelled by their ASCII meaning, which is what the
  spec prescribes);
* `match_from` → `matchFromF` (fuel-indexed; the canonical `matchFrom`
  instantiates the fuel at the structural size of the token sequence, and the
  stability theorem shows any larger fuel gives the same answer, i.e.
  the Python recursion terminates).  The `while frontier` closure loop
  of the `+`-quantified group case becomes `n + 2` iterations of the
  monotone step function, which provably reaches the fixed point the
  Python loop computes;
* `match_pattern` → `matchPattern` (anchor stripping, `str.splitlines`
  modelled for all of its line boundaries — `\n`, `\r`, `\r\n`, `\x0b`,
  `\x0c`, `\x1c`, `\x1d`, `\x1e`, `\x85`, `\u2028`, `\u2029` — per-line
  matching and the final whole-input scan for unanchored patterns).
-/

/-- Quantifier attached to a token: `None`, `'+'` or `'?'` in the source. -/
inductive Quant : Type where
  | none : Quant
  | plus : Quant
  | question : Quant
deriving DecidableEq, Repr

mutual

/-- One parsed token, `('literal', c, q)`, `('digit', None, q)`,
`('word', None, q)`, `('class', (chars, negated), q)`, `('dot', None, q)` or
`('group', alternatives, q)` in the source. -/
inductive Token : Type where
  | literal : Char → Quant → Token
  | digit : Quant → Token
  | word : Quant → Token
  | cls : List Char → Bool → Quant → Token
  | dot : Quant → Token
  | group : Alts → Quant → Token

/-- A list of alternative sequences (the `alternatives` list of a group). -/
inductive Alts : Type where
  | nil : Alts
  | cons : Sequence → Alts → Alts

/-- A sequence of tokens (one alternation branch). -/
inductive Sequence : Type where
  | nil : Sequence
  | cons : Token → Sequence → Sequence

end

/-- The quantifier slot of a token. -/
def Token.quant : Token → Quant
  | .literal _ q => q
  | .digit q => q
  | .word q => q
  | .cls _ _ q => q
  | .dot q => q
  | .group _ q => q

/-- Replace the quantifier slot (`token = (token[0], token[1], quant)`). -/
def Token.setQuant : Token → Quant → Token
  | .literal c _, q => .literal c q
  | .digit _, q => .digit q
  | .word _, q => .word q
  | .cls cs neg _, q => .cls cs neg q
  | .dot _, q => .dot q
  | .group a _, q => .group a q

/-- Whether the token is a group (`ttype == 'group'`). -/
def Token.isGroup : Token → Bool
  | .group _ _ => true
  | _ => false

/-- View the alternatives as an ordinary list. -/
def Alts.toList : Alts → List Sequence
  | .nil => []
  | .cons s rest => s :: rest.toList

/-- View a sequence as an ordinary list of tokens. -/
def Sequence.toList : Sequence → List Token
  | .nil => []
  | .cons t rest => t :: rest.toList

mutual

/-- Structural size of a token, used as the canonical fuel of the matcher. -/
def Token.size : Token → Nat
  | .literal _ _ => 1
  | .digit _ => 1
  | .word _ => 1
  | .cls _ _ _ => 1
  | .dot _ => 1
  | .group alts _ => 1 + alts.size

/-- Structural size of an alternatives list. -/
def Alts.size : Alts → Nat
  | .nil => 1
  | .cons s rest => 1 + s.size + rest.size

/-- Structural size of a sequence. -/
def Sequence.size : Sequence → Nat
  | .nil => 1
  | .cons t rest => 1 + t.size + rest.size

end

/-- Compilation errors: `RuntimeError('Unterminated character class')` and
`RuntimeError("Unterminated group, ...")` in the source. -/
inductive ParseErr : Type where
  | unterminatedClass : ParseErr
  | unterminatedGroup : ParseErr
deriving DecidableEq, Repr

/-- Append a token in front of the first (currently open) alternative:
the recursive rendering of `seq.append(token)` in the source's loop. -/
def prependTok (t : Token) : Alts → Alts
  | .nil => .cons (.cons t .nil) .nil
  | .cons s rest => .cons (.cons t s) rest

/-- Quantifier character to quantifier. -/
def quantOf (c : Char) : Quant :=
  if c = '+' then .plus else .question

/-- Attach a following quantifier character to the freshly parsed atom, if
present (`if i < L and pattern[i] in ('+', '?')`). -/
def attachQuant (t : Token) (s : List Char) : Token × List Char :=
  match s with
  | [] => (t, [])
  | c :: rest => if c = '+' ∨ c = '?' then (t.setQuant (quantOf c), rest) else (t, c :: rest)

/-- The body of `parse_alternatives(i, end_char)`.  The fuel argument stands
for the strictly increasing index `i` of the source (every recursive call
consumes at least one character, so fuel `length + 1` never runs out); the
remaining input is carried explicitly instead of the index. -/
def parseAltsF : Nat → List Char → Option Char → Except ParseErr (Alts × List Char)
  | 0, _, _ => .error .unterminatedGroup
  | _ + 1, [], endChar =>
      match endChar with
      | Option.none => .ok (.cons .nil .nil, [])
      | Option.some _ => .error .unterminatedGroup
  | fuel + 1, c :: rest, endChar =>
      if endChar = Option.some c then .ok (.cons .nil .nil, rest)
      else if c = '|' then
        match parseAltsF fuel rest endChar with
        | .error e => .error e
        | .ok (alts, r) => .ok (.cons .nil alts, r)
      else
        let atomRes : Except ParseErr (Token × List Char) :=
          if c = '\\' then
            match rest with
            | [] => .ok (.literal '\\' .none, [])
            | esc :: rest2 =>
                if esc = 'd' then .ok (.digit .none, rest2)
                else if esc = 'w' then .ok (.word .none, rest2)
                else .ok (.literal esc .none, rest2)
          else if c = '[' then
            if ']' ∈ rest then
              let content := rest.takeWhile (fun x => x ≠ ']')
              let after := (rest.dropWhile (fun x => x ≠ ']')).drop 1
              match content with
              | '^' :: cs => .ok (.cls cs true .none, after)
              | _ => .ok (.cls content false .none, after)
            else .error .unterminatedClass
          else if c = '.' then .ok (.dot .none, rest)
          else if c = '(' then
            match parseAltsF fuel rest (Option.some ')') with
            | .error e => .error e
            | .ok (innerAlts, r) => .ok (.group innerAlts .none, r)
          else .ok (.literal c .none, rest)
        match atomRes with
        | .error e => .error e
        | .ok (tok0, s1) =>
          match attachQuant tok0 s1 with
          | (tok, s2) =>
            match parseAltsF fuel s2 endChar with
            | .error e => .error e
            | .ok (alts, r) => .ok (prependTok tok alts, r)

/-- `parse_pattern`: parse the whole pattern; wrap a top level with several
alternatives into a single implicit group token. -/
def parsePattern (p : List Char) : Except ParseErr Sequence :=
  match parseAltsF (p.length + 1) p Option.none with
  | .error e => .error e
  | .ok (alts, _) =>
    match alts with
    | .cons s .nil => .ok s
    | _ => .ok (.cons (.group alts .none) .nil)

/-- `token_matches_char`: the character predicate of each token kind. -/
def tokenMatchesChar (t : Token) (ch : Char) : Bool :=
  match t with
  | .literal c _ => ch == c
  | .digit _ => ch.isDigit
  | .word _ => ch.isAlphanum || ch == '_'
  | .cls chars neg _ => if neg then !(chars.contains ch) else chars.contains ch
  | .dot _ => ch != '\n'
  | .group _ _ => false

/-- Length of the maximal run of characters satisfying the token's predicate
starting at `pos` (the `while p < n and token_matches_char(...)` scan). -/
def runLen (t : Token) (line : List Char) (pos : Nat) : Nat :=
  ((line.drop pos).takeWhile (fun c => tokenMatchesChar t c)).length

/-- Union of the end-position sets of every alternative, given the matcher
for one sequence (`for alt in alternatives: ... update(...)`). -/
def altEndsWith (m : Sequence → Finset Nat) (alts : Alts) : Finset Nat :=
  (alts.toList.map m).foldl (fun a b => a ∪ b) ∅

/-- One round of the reachable-positions closure loop of the `+`-quantified
group case: keep everything already visited and add the end positions of one
more occurrence from every visited position. -/
def closureStep (g : Nat → Finset Nat) (S : Finset Nat) : Finset Nat :=
  S ∪ S.biUnion g

/-- The single-token (non-group) cases of `match_from`, parameterised by the
matcher `mrest` for the rest of the sequence: the `quant is None`,
`quant == '+'` and `quant == '?'` blocks of the source. -/
def nonGroupStep (q : Quant) (t : Token) (line : List Char) (pos : Nat)
    (mrest : Nat → Finset Nat) : Finset Nat :=
  match q with
  | .none =>
    if h : pos < line.length then
      if tokenMatchesChar t (line.get ⟨pos, h⟩) then mrest (pos + 1) else ∅
    else ∅
  | .plus =>
    if runLen t line pos = 0 then ∅
    else (Finset.Icc 1 (runLen t line pos)).biUnion (fun k => mrest (pos + k))
  | .question =>
    mrest pos ∪
      (if h : pos < line.length then
        (if tokenMatchesChar t (line.get ⟨pos, h⟩) then mrest (pos + 1) else ∅)
       else ∅)

/-- The group cases of `match_from`, parameterised by the one-occurrence
matcher `alt` (union over the group's alternatives) and the matcher `mrest`
for the rest of the outer sequence.  For `'+'`, the `while frontier` loop of
the source becomes `n + 2` iterations of `closureStep`, which reaches the
loop's fixed point (`n` is the line length).  Unions replace the source's
`results.update(...)` accumulation; the descending iteration order over `k`
and over `reachable` is irrelevant to the resulting set. -/
def groupStep (q : Quant) (alt mrest : Nat → Finset Nat) (pos n : Nat) : Finset Nat :=
  match q with
  | .none => (alt pos).biUnion mrest
  | .question => mrest pos ∪ (alt pos).biUnion mrest
  | .plus =>
    if alt pos = ∅ then ∅
    else ((closureStep alt)^[n + 2] (alt pos)).biUnion mrest

/-- `match_from(tokens, i, pos, line)`, embedded with the token suffix
`tokens[i:]` as the sequence argument and an explicit fuel (the Python
recursion always terminates; the fuel is instantiated at the structural
size of the sequence by `matchFrom`, and `matchFromF_stable` shows that
is enough). -/
def matchFromF : Nat → Sequence → Nat → List Char → Finset Nat
  | 0, _, _, _ => ∅
  | _ + 1, .nil, pos, _ => {pos}
  | fuel + 1, .cons t rest, pos, line =>
    match t with
    | .group alts q =>
      groupStep q (fun p => altEndsWith (fun s => matchFromF fuel s p line) alts)
        (fun e => matchFromF fuel rest e line) pos line.length
    | _ => nonGroupStep t.quant t line pos (fun e => matchFromF fuel rest e line)

/-- `match_from` with its canonical (always sufficient) fuel. -/
def matchFrom (toks : Sequence) (pos : Nat) (line : List Char) : Finset Nat :=
  matchFromF toks.size toks pos line

/-- End positions of one occurrence of any alternative of a group at `p`. -/
def altEnds (alts : Alts) (p : Nat) (line : List Char) : Finset Nat :=
  altEndsWith (fun s => matchFrom s p line) alts

/-- The line-boundary characters of Python's `str.splitlines`: `\n`, `\r`,
`\x0b` (`\v`), `\x0c` (`\f`), the file/group/record separators `\x1c`,
`\x1d`, `\x1e`, the next-line character `\x85`, and the line and paragraph
separators `\u2028` and `\u2029` (`\r\n` counts as a single boundary). -/
def isLineBreak (c : Char) : Bool :=
  c = '\n' || c = '\r' || c = '\x0b' || c = '\x0c' ||
  c = '\x1c' || c = '\x1d' || c = '\x1e' || c = '\x85' ||
  c = '\u2028' || c = '\u2029'

/-- `str.splitlines`, accumulator version over the boundaries of
`isLineBreak`, with `\r\n` consumed as one boundary.  A trailing line
boundary produces no extra empty line, exactly as in Python.  The fuel
argument stands for the strictly increasing scan index of the CPython
implementation (every step consumes at least one character, so fuel
`length + 1` never runs out). -/
def splitlinesAuxF : Nat → List Char → List Char → List (List Char)
  | 0, _, acc => [acc.reverse]
  | _ + 1, [], acc => [acc.reverse]
  | fuel + 1, c :: rest, acc =>
      if isLineBreak c then
        if c = '\r' then
          match rest with
          | '\n' :: r2 =>
              acc.reverse :: (match r2 with | [] => [] | _ => splitlinesAuxF fuel r2 [])
          | _ =>
              acc.reverse :: (match rest with | [] => [] | _ => splitlinesAuxF fuel rest [])
        else
          acc.reverse :: (match rest with | [] => [] | _ => splitlinesAuxF fuel rest [])
      else splitlinesAuxF fuel rest (c :: acc)

/-- `input_line.splitlines()` (empty input gives no lines). -/
def splitlines (s : List Char) : List (List Char) :=
  match s with
  | [] => []
  | _ => splitlinesAuxF (s.length + 1) s []

/-- `match_in_line`: anchor-directed driving logic over one line. -/
def matchInLine (toks : Sequence) (aS aE : Bool) (line : List Char) : Bool :=
  let n := line.length
  if aS && aE then decide (n ∈ matchFrom toks 0 line)
  else if aS then decide (matchFrom toks 0 line ≠ ∅)
  else if aE then (List.range (n + 1)).any (fun start => decide (n ∈ matchFrom toks start line))
  else (List.range (n + 1)).any (fun start => decide (matchFrom toks start line ≠ ∅))

/-- The body of `match_pattern` after compilation: the empty-pattern special
case, per-line matching, and the final whole-input scan for unanchored
patterns. -/
def matchesTokens (input : List Char) (aS aE : Bool) (toks : Sequence) : Bool :=
  match toks with
  | .nil =>
    let lines := splitlines input
    if aS || aE then lines.any (fun l => l.isEmpty) || (input.isEmpty && (aS || aE))
    else true
  | _ =>
    let lines0 := splitlines input
    let lines := if lines0.isEmpty && input.isEmpty then [([] : List Char)] else lines0
    if lines.any (matchInLine toks aS aE) then true
    else if !aS && !aE then
      (List.range (input.length + 1)).any (fun start => decide (matchFrom toks start input ≠ ∅))
    else false

/-- `pattern.startswith('^')`. -/
def anchoredStart (pattern : List Char) : Bool :=
  pattern.head? == Option.some '^'

/-- `pattern = pattern[1:]` when the start anchor is present. -/
def stripStart (pattern : List Char) : List Char :=
  if anchoredStart pattern then pattern.drop 1 else pattern

/-- `pattern.endswith('$')`, applied after start-anchor stripping. -/
def anchoredEnd (p1 : List Char) : Bool :=
  p1.getLast? == Option.some '$'

/-- `pattern = pattern[:-1]` when the end anchor is present. -/
def stripEnd (p1 : List Char) : List Char :=
  if anchoredEnd p1 then p1.dropLast else p1

/-- The pattern with both anchors stripped, as compiled by `match_pattern`. -/
def coreOf (pattern : List Char) : List Char :=
  stripEnd (stripStart pattern)

/-- `match_pattern(input_line, pattern)`: strip anchors, compile, match.
A compilation error propagates (Python raises); matching itself always
produces a boolean. -/
def matchPattern (input pattern : List Char) : Except ParseErr Bool :=
  match parsePattern (coreOf pattern) with
  | .error e => .error e
  | .ok toks =>
      .ok (matchesTokens input (anchoredStart pattern) (anchoredEnd (stripStart pattern)) toks)

/-- String-level convenience wrapper. -/
def matchesStr (input pattern : String) : Except ParseErr Bool :=
  matchPattern input.toList pattern.toList

/-- Positions reachable from `pos` by one or more consecutive occurrences of
the group (each occurrence matching one alternative): the set the source's
`while frontier` closure loop computes. -/
inductive GroupReach (alts : Alts) (line : List Char) (pos : Nat) : Nat → Prop where
  | one : ∀ {q}, q ∈ altEnds alts pos line → GroupReach alts line pos q
  | step : ∀ {p q}, GroupReach alts line pos p → q ∈ altEnds alts p line →
      GroupReach alts line pos q

mutual

/-- Every group token inside has a non-empty alternatives list. -/
inductive TokenOK : Token → Prop where
  | literal : ∀ c q, TokenOK (.literal c q)
  | digit : ∀ q, TokenOK (.digit q)
  | word : ∀ q, TokenOK (.word q)
  | cls : ∀ cs neg q, TokenOK (.cls cs neg q)
  | dot : ∀ q, TokenOK (.dot q)
  | group : ∀ alts q, alts ≠ .nil → AltsOK alts → TokenOK (.group alts q)

/-- Every group token inside any member sequence has non-empty alternatives. -/
inductive AltsOK : Alts → Prop where
  | nil : AltsOK .nil
  | cons : ∀ s rest, SequenceOK s → AltsOK rest → AltsOK (.cons s rest)

/-- Every group token inside the sequence has non-empty alternatives. -/
inductive SequenceOK : Sequence → Prop where
  | nil : SequenceOK .nil
  | cons : ∀ t rest, TokenOK t → SequenceOK rest → SequenceOK (.cons t rest)

end

/-- The sequence of unquantified literal tokens a metacharacter-free pattern
compiles to. -/
def seqOfLits : List Char → Sequence
  | [] => .nil
  | c :: cs => .cons (.literal c .none) (seqOfLits cs)

/-- The metacharacters of the pattern language. -/
def metaChars : List Char :=
  ['\\', '[', ']', '^', '$', '.', '(', ')', '|', '+', '?']

/-- The pattern contains an occurrence of the character `a` with no
occurrence of the character `b` anywhere after it. -/
def CharBad (a b : Char) (s : List Char) : Prop :=
  ∃ s1 s2 : List Char, s = s1 ++ a :: s2 ∧ b ∉ s2

example : matchesStr "aaa" "a+" = .ok true := rfl
example : matchesStr "" "a+" = .ok false := rfl
example : matchesStr "aaab" "a+ab" = .ok true := rfl
example : matchesStr "abc" "^abc$" = .ok true := rfl
example : matchesStr "xabc" "^abc$" = .ok false := rfl
example : matchesStr "abcx" "^abc$" = .ok false := rfl
example : matchesStr "catcatcat" "^(cat)+$" = .ok true := rfl
example : matchesStr "catdogcat" "(cat|dog)+$" = .ok true := rfl
example : matchesStr "cat" "c.t" = .ok true := rfl
example : matchesStr "color" "colou?r" = .ok true := rfl
example : matchesStr "colour" "colou?r" = .ok true := rfl
example : matchesStr "cat" "(cat|dog)" = .ok true := rfl
example : matchesStr "fish" "(cat|dog)" = .ok false := rfl
example : matchesStr "apple" "[^xyz]" = .ok true := rfl
example : matchesStr "5" "\\d" = .ok true := rfl
example : matchesStr "_" "\\w" = .ok true := rfl
example : matchesStr "abc" "[abc" = .error .unterminatedClass := rfl
example : matchesStr "abc" "(abc" = .error .unterminatedGroup := rfl
example : matchesStr "abc" "^" = .ok false := rfl
example : matchesStr "a\nb" "\n" = .ok true := rfl
example : matchesStr "ab" "(a|)+b" = .ok true := rfl
example : matchesStr "x" "[^]" = .ok true := rfl
example : splitlines "a\x0bb".toList = ["a".toList, "b".toList] := rfl
example : splitlines "a\x85b".toList = ["a".toList, "b".toList] := rfl
example : splitlines "a\u2028b".toList = ["a".toList, "b".toList] := rfl
example : splitlines "a\r\nb".toList = ["a".toList, "b".toList] := rfl
example : splitlines "a\r\n".toList = ["a".toList] := rfl
example : matchesStr "a\x0bb" "^a$" = .ok true := rfl
example : matchesStr "x" "]ab[" = .error .unterminatedClass := rfl
example : matchesStr "x" "(a)(" = .error .unterminatedGroup := rfl

/-- Every token has positive structural size. -/
theorem token_size_pos : ∀ t : Token, 1 ≤ t.size := by
  intro t
  cases t <;> simp only [Token.size] <;> omega

/-- Every sequence has positive structural size. -/
theorem sequence_size_pos : ∀ s : Sequence, 1 ≤ s.size := by
  intro s
  cases s <;> simp only [Sequence.size] <;> omega

/-- A member of an alternatives list is structurally smaller than the list. -/
theorem size_lt_of_mem : ∀ (alts : Alts), ∀ s ∈ alts.toList, s.size < alts.size
  | .nil => by
      intro s hs
      simp [Alts.toList] at hs
  | .cons a rest => by
      intro s hs
      simp only [Alts.toList, List.mem_cons] at hs
      rcases hs with rfl | hs
      · simp only [Alts.size]
        omega
      · have := size_lt_of_mem rest s hs
        simp only [Alts.size]
        omega

/-- `altEndsWith` only depends on the matcher's values on the members. -/
theorem altEndsWith_congr {m₁ m₂ : Sequence → Finset Nat} (alts : Alts)
    (h : ∀ s ∈ alts.toList, m₁ s = m₂ s) :
    altEndsWith m₁ alts = altEndsWith m₂ alts := by
  unfold altEndsWith
  rw [List.map_congr_left h]

/-- Fuel stability: any two sufficient fuels give the same matching result.
This is the termination argument for the source's recursion: all recursive
calls of `match_from` descend into structurally smaller token sequences. -/
theorem matchFromF_stable : ∀ (f g : Nat) (toks : Sequence) (pos : Nat) (line : List Char),
    toks.size ≤ f → toks.size ≤ g →
    matchFromF f toks pos line = matchFromF g toks pos line := by
  intro f
  induction f with
  | zero =>
    intro g toks pos line hf _
    have := sequence_size_pos toks
    omega
  | succ f ih =>
    intro g toks pos line hf hg
    match g, toks with
    | 0, toks =>
      have := sequence_size_pos toks
      omega
    | g + 1, .nil => rfl
    | g + 1, .cons t rest =>
      simp only [Sequence.size] at hf hg
      have hrestpos := sequence_size_pos rest
      have htpos := token_size_pos t
      have hrest : (fun e => matchFromF f rest e line) = (fun e => matchFromF g rest e line) :=
        funext fun e => ih g rest e line (by omega) (by omega)
      cases t with
      | group alts q =>
        simp only [Token.size] at hf hg htpos
        have halt : (fun p => altEndsWith (fun s => matchFromF f s p line) alts)
            = (fun p => altEndsWith (fun s => matchFromF g s p line) alts) :=
          funext fun p => altEndsWith_congr alts (fun s hs => by
            have := size_lt_of_mem alts s hs
            exact ih g s p line (by omega) (by omega))
        simp only [matchFromF]
        rw [halt, hrest]
      | literal c q =>
        simp only [matchFromF]
        rw [hrest]
      | digit q =>
        simp only [matchFromF]
        rw [hrest]
      | word q =>
        simp only [matchFromF]
        rw [hrest]
      | cls cs neg q =>
        simp only [matchFromF]
        rw [hrest]
      | dot q =>
        simp only [matchFromF]
        rw [hrest]

/-- A sufficient fuel computes the canonical `matchFrom`. -/
theorem matchFromF_eq_matchFrom (f : Nat) (toks : Sequence) (pos : Nat) (line : List Char)
    (h : toks.size ≤ f) : matchFromF f toks pos line = matchFrom toks pos line :=
  matchFromF_stable f toks.size toks pos line h (le_refl _)

/-- Unfolding `matchFrom` on an empty sequence: the only end position is
the current one. -/
theorem matchFrom_nil (pos : Nat) (line : List Char) : matchFrom .nil pos line = {pos} := rfl

/-- Unfolding `matchFrom` on a leading group token. -/
theorem matchFrom_cons_group (alts : Alts) (q : Quant) (rest : Sequence) (pos : Nat)
    (line : List Char) :
    matchFrom (.cons (.group alts q) rest) pos line =
      groupStep q (fun p => altEnds alts p line) (fun e => matchFrom rest e line) pos
        line.length := by
  have hsz : (Sequence.cons (.group alts q) rest).size
      = ((Token.group alts q).size + rest.size) + 1 := by
    simp only [Sequence.size]
    omega
  rw [matchFrom, hsz]
  simp only [matchFromF]
  have h1 : (fun p => altEndsWith (fun s =>
        matchFromF ((Token.group alts q).size + rest.size) s p line) alts)
      = fun p => altEnds alts p line :=
    funext fun p => altEndsWith_congr alts (fun s hs => by
      have h2 := size_lt_of_mem alts s hs
      have h3 : (Token.group alts q).size = 1 + alts.size := by simp [Token.size]
      exact matchFromF_eq_matchFrom _ _ _ _ (by omega))
  have h4 : (fun e => matchFromF ((Token.group alts q).size + rest.size) rest e line)
      = fun e => matchFrom rest e line :=
    funext fun e => matchFromF_eq_matchFrom _ _ _ _ (by
      have := token_size_pos (.group alts q)
      omega)
  rw [h1, h4]

/-- Unfolding `matchFrom` on a leading non-group token. -/
theorem matchFrom_cons_nonGroup (t : Token) (rest : Sequence) (pos : Nat) (line : List Char)
    (hng : t.isGroup = false) :
    matchFrom (.cons t rest) pos line =
      nonGroupStep t.quant t line pos (fun e => matchFrom rest e line) := by
  have hsz : (Sequence.cons t rest).size = (t.size + rest.size) + 1 := by
    simp only [Sequence.size]
    omega
  have h4 : (fun e => matchFromF (t.size + rest.size) rest e line)
      = fun e => matchFrom rest e line :=
    funext fun e => matchFromF_eq_matchFrom _ _ _ _ (by
      have := token_size_pos t
      omega)
  rw [matchFrom, hsz]
  cases t with
  | group alts q => simp [Token.isGroup] at hng
  | literal c q =>
    simp only [matchFromF]
    rw [h4]
  | digit q =>
    simp only [matchFromF]
    rw [h4]
  | word q =>
    simp only [matchFromF]
    rw [h4]
  | cls cs neg q =>
    simp only [matchFromF]
    rw [h4]
  | dot q =>
    simp only [matchFromF]
    rw [h4]

/-- Membership in a left fold of unions. -/
theorem mem_foldl_union : ∀ (L : List (Finset Nat)) (init : Finset Nat) (e : Nat),
    (e ∈ L.foldl (fun a b => a ∪ b) init ↔ e ∈ init ∨ ∃ S ∈ L, e ∈ S) := by
  intro L
  induction L with
  | nil =>
    intro init e
    simp
  | cons S L ih =>
    intro init e
    simp only [List.foldl_cons]
    rw [ih]
    simp only [Finset.mem_union, List.mem_cons]
    constructor
    · rintro ((h | h) | ⟨T, hT, h⟩)
      · exact Or.inl h
      · exact Or.inr ⟨S, Or.inl rfl, h⟩
      · exact Or.inr ⟨T, Or.inr hT, h⟩
    · rintro (h | ⟨T, (rfl | hT), h⟩)
      · exact Or.inl (Or.inl h)
      · exact Or.inl (Or.inr h)
      · exact Or.inr ⟨T, hT, h⟩

/-- Membership in the union over the alternatives of a group. -/
theorem mem_altEndsWith (m : Sequence → Finset Nat) (alts : Alts) (e : Nat) :
    e ∈ altEndsWith m alts ↔ ∃ s ∈ alts.toList, e ∈ m s := by
  unfold altEndsWith
  rw [mem_foldl_union]
  simp

/-- The maximal run never extends past the end of the line. -/
theorem runLen_le (t : Token) (line : List Char) (pos : Nat) :
    runLen t line pos ≤ line.length - pos := by
  unfold runLen
  have h := (List.takeWhile_sublist (l := line.drop pos)
    (fun c => tokenMatchesChar t c)).length_le
  simpa using h

/-- Bounds for the non-group step: end positions lie between the current
position and the end of the line. -/
theorem nonGroupStep_bounds (q : Quant) (t : Token) (line : List Char) (pos : Nat)
    (mrest : Nat → Finset Nat)
    (hm : ∀ p e, e ∈ mrest p → p ≤ e ∧ e ≤ max p line.length) :
    ∀ e ∈ nonGroupStep q t line pos mrest, pos ≤ e ∧ e ≤ max pos line.length := by
  intro e he
  cases q with
  | none =>
    simp only [nonGroupStep] at he
    split at he
    case isTrue h =>
      split at he
      case isTrue hc =>
        have := hm (pos + 1) e he
        omega
      case isFalse hc =>
        simp at he
    case isFalse h =>
      simp at he
  | plus =>
    simp only [nonGroupStep] at he
    split at he
    case isTrue h =>
      simp at he
    case isFalse h =>
      rcases Finset.mem_biUnion.1 he with ⟨k, hk, hek⟩
      rw [Finset.mem_Icc] at hk
      have hrl := runLen_le t line pos
      have := hm (pos + k) e hek
      omega
  | question =>
    simp only [nonGroupStep] at he
    rcases Finset.mem_union.1 he with he | he
    · exact hm pos e he
    · split at he
      case isTrue h =>
        split at he
        case isTrue hc =>
          have := hm (pos + 1) e he
          omega
        case isFalse hc =>
          simp at he
      case isFalse h =>
        simp at he

/-- Bounds for the reachable-positions closure of the `+`-quantified group. -/
theorem closure_bounds (alt : Nat → Finset Nat) (line : List Char) (pos : Nat)
    (halt : ∀ p e, e ∈ alt p → p ≤ e ∧ e ≤ max p line.length)
    (S0 : Finset Nat) (hS0 : ∀ e ∈ S0, pos ≤ e ∧ e ≤ max pos line.length) :
    ∀ k, ∀ e ∈ (closureStep alt)^[k] S0, pos ≤ e ∧ e ≤ max pos line.length := by
  intro k
  induction k with
  | zero =>
    simpa using hS0
  | succ k ih =>
    intro e he
    rw [Function.iterate_succ_apply'] at he
    unfold closureStep at he
    rcases Finset.mem_union.1 he with he | he
    · exact ih e he
    · rcases Finset.mem_biUnion.1 he with ⟨p, hp, hep⟩
      have h1 := ih p hp
      have h2 := halt p e hep
      omega

/-- Bounds for the group step. -/
theorem groupStep_bounds (q : Quant) (alt mrest : Nat → Finset Nat) (pos : Nat)
    (line : List Char)
    (halt : ∀ p e, e ∈ alt p → p ≤ e ∧ e ≤ max p line.length)
    (hm : ∀ p e, e ∈ mrest p → p ≤ e ∧ e ≤ max p line.length) :
    ∀ e ∈ groupStep q alt mrest pos line.length, pos ≤ e ∧ e ≤ max pos line.length := by
  intro e he
  cases q with
  | none =>
    simp only [groupStep] at he
    rcases Finset.mem_biUnion.1 he with ⟨p, hp, hep⟩
    have h1 := halt pos p hp
    have h2 := hm p e hep
    omega
  | question =>
    simp only [groupStep] at he
    rcases Finset.mem_union.1 he with he | he
    · exact hm pos e he
    · rcases Finset.mem_biUnion.1 he with ⟨p, hp, hep⟩
      have h1 := halt pos p hp
      have h2 := hm p e hep
      omega
  | plus =>
    simp only [groupStep] at he
    split at he
    case isTrue h =>
      simp at he
    case isFalse h =>
      rcases Finset.mem_biUnion.1 he with ⟨p, hp, hep⟩
      have h1 := closure_bounds alt line pos halt (alt pos)
        (fun x hx => halt pos x hx) (line.length + 2) p hp
      have h2 := hm p e hep
      omega

/-- End positions returned by the matcher lie between the starting position
and the end of the line (they are drawn from the finite range
`pos .. max pos line.length`). -/
theorem matchFromF_bounds : ∀ (f : Nat) (toks : Sequence) (pos : Nat) (line : List Char)
    (e : Nat), e ∈ matchFromF f toks pos line → pos ≤ e ∧ e ≤ max pos line.length := by
  intro f
  induction f with
  | zero =>
    intro toks pos line e he
    simp [matchFromF] at he
  | succ f ih =>
    intro toks pos line e he
    match toks with
    | .nil =>
      simp only [matchFromF, Finset.mem_singleton] at he
      omega
    | .cons t rest =>
      have hm : ∀ p x, x ∈ matchFromF f rest p line → p ≤ x ∧ x ≤ max p line.length :=
        fun p x hx => ih rest p line x hx
      cases t with
      | group alts q =>
        simp only [matchFromF] at he
        have halt : ∀ p x, x ∈ altEndsWith (fun s => matchFromF f s p line) alts →
            p ≤ x ∧ x ≤ max p line.length := by
          intro p x hx
          rcases (mem_altEndsWith _ _ _).1 hx with ⟨s, _, hxs⟩
          exact ih s p line x hxs
        exact groupStep_bounds q _ _ pos line halt hm e he
      | literal c q =>
        simp only [matchFromF] at he
        exact nonGroupStep_bounds _ _ line pos _ hm e he
      | digit q =>
        simp only [matchFromF] at he
        exact nonGroupStep_bounds _ _ line pos _ hm e he
      | word q =>
        simp only [matchFromF] at he
        exact nonGroupStep_bounds _ _ line pos _ hm e he
      | cls cs neg q =>
        simp only [matchFromF] at he
        exact nonGroupStep_bounds _ _ line pos _ hm e he
      | dot q =>
        simp only [matchFromF] at he
        exact nonGroupStep_bounds _ _ line pos _ hm e he

/-- Bounds for the canonical matcher. -/
theorem matchFrom_bounds (toks : Sequence) (pos : Nat) (line : List Char) (e : Nat)
    (he : e ∈ matchFrom toks pos line) : pos ≤ e ∧ e ≤ max pos line.length :=
  matchFromF_bounds toks.size toks pos line e he

/-- The start set is contained in every iterate of an inflationary map. -/
theorem subset_iterate (g : Finset Nat → Finset Nat) (hinf : ∀ S, S ⊆ g S)
    (S : Finset Nat) : ∀ k, S ⊆ g^[k] S := by
  intro k
  induction k with
  | zero => simp
  | succ k ih =>
    rw [Function.iterate_succ_apply']
    exact ih.trans (hinf _)

/-- Iterates stay inside a closed universe. -/
theorem iterate_subset_of_closed (g : Finset Nat → Finset Nat) (U : Finset Nat)
    (hU : ∀ S, S ⊆ U → g S ⊆ U) (S0 : Finset Nat) (hS0 : S0 ⊆ U) :
    ∀ k, g^[k] S0 ⊆ U := by
  intro k
  induction k with
  | zero => simpa using hS0
  | succ k ih =>
    rw [Function.iterate_succ_apply']
    exact hU _ ih

/-- Once an iterate is a fixed point, all later iterates agree with it. -/
theorem iterate_eq_of_fix (g : Finset Nat → Finset Nat) (S0 : Finset Nat) (i : Nat)
    (hfix : g (g^[i] S0) = g^[i] S0) : ∀ k, i ≤ k → g^[k] S0 = g^[i] S0 := by
  intro k
  induction k with
  | zero =>
    intro h
    have h0 : i = 0 := by omega
    rw [h0]
  | succ k ih =>
    intro h
    by_cases hik : i ≤ k
    · rw [Function.iterate_succ_apply', ih hik, hfix]
    · have h1 : i = k + 1 := by omega
      rw [h1]

/-- While no fixed point has been reached, the iterates grow strictly. -/
theorem card_growth (g : Finset Nat → Finset Nat) (hinf : ∀ S, S ⊆ g S) (S0 : Finset Nat) :
    ∀ j, (∀ i < j, g (g^[i] S0) ≠ g^[i] S0) → S0.card + j ≤ (g^[j] S0).card := by
  intro j
  induction j with
  | zero =>
    intro _
    simp
  | succ j ih =>
    intro hne
    have h1 := ih (fun i hi => hne i (by omega))
    have h2 : (g^[j] S0) ⊂ g (g^[j] S0) :=
      (ssubset_iff_subset_ne).2 ⟨hinf _, (hne j (by omega)).symm⟩
    have h3 := Finset.card_lt_card h2
    rw [Function.iterate_succ_apply']
    omega

/-- An inflationary map on subsets of a finite universe reaches a fixed point
after at most `U.card` iterations: the termination argument of the source's
`while frontier` loop. -/
theorem iterate_fix (g : Finset Nat → Finset Nat) (hinf : ∀ S, S ⊆ g S) (U : Finset Nat)
    (hU : ∀ S, S ⊆ U → g S ⊆ U) (S0 : Finset Nat) (hS0 : S0 ⊆ U) :
    ∀ k, U.card ≤ k → g (g^[k] S0) = g^[k] S0 := by
  intro k hk
  have hex : ∃ i, i ≤ U.card ∧ g (g^[i] S0) = g^[i] S0 := by
    by_contra hno
    push_neg at hno
    have hgrow := card_growth g hinf S0 (U.card + 1) (fun i hi => hno i (by omega))
    have hsub := iterate_subset_of_closed g U hU S0 hS0 (U.card + 1)
    have hcard := Finset.card_le_card hsub
    omega
  rcases hex with ⟨i, hi, hfix⟩
  rw [iterate_eq_of_fix g S0 i hfix k (by omega), hfix]

/-- Bounds for the one-occurrence end positions of a group. -/
theorem altEnds_bounds (alts : Alts) (line : List Char) :
    ∀ p e, e ∈ altEnds alts p line → p ≤ e ∧ e ≤ max p line.length := by
  intro p e he
  rcases (mem_altEndsWith _ _ _).1 he with ⟨s, _, hes⟩
  exact matchFrom_bounds s p line e hes

/-- The closure step preserves the interval of possible positions. -/
theorem closure_closed (alts : Alts) (line : List Char) (pos : Nat) :
    ∀ S, S ⊆ Finset.Icc pos (max pos line.length) →
      closureStep (fun p => altEnds alts p line) S ⊆ Finset.Icc pos (max pos line.length) := by
  intro S hS x hx
  unfold closureStep at hx
  rcases Finset.mem_union.1 hx with hx | hx
  · exact hS hx
  · rcases Finset.mem_biUnion.1 hx with ⟨p, hp, hxp⟩
    have h1 := hS hp
    rw [Finset.mem_Icc] at h1 ⊢
    have h2 := altEnds_bounds alts line p x hxp
    omega

/-- After `line.length + 2` rounds the closure loop has reached its fixed
point: one more round adds no position, exactly the exit condition of the
source's `while frontier` loop. -/
theorem closure_fix (alts : Alts) (line : List Char) (pos : Nat) :
    closureStep (fun p => altEnds alts p line)
        ((closureStep (fun p => altEnds alts p line))^[line.length + 2]
          (altEnds alts pos line))
      = (closureStep (fun p => altEnds alts p line))^[line.length + 2]
          (altEnds alts pos line) := by
  apply iterate_fix _ (fun S => Finset.subset_union_left)
    (Finset.Icc pos (max pos line.length)) (closure_closed alts line pos)
  · intro e he
    rw [Finset.mem_Icc]
    exact altEnds_bounds alts line pos e he
  · rw [Nat.card_Icc]
    omega

/-- Soundness: every position in the closure iterates is reachable by one or
more occurrences of the group. -/
theorem reach_sound (alts : Alts) (line : List Char) (pos : Nat) :
    ∀ k e, e ∈ (closureStep (fun p => altEnds alts p line))^[k] (altEnds alts pos line) →
      GroupReach alts line pos e := by
  intro k
  induction k with
  | zero =>
    intro e he
    exact GroupReach.one (by simpa using he)
  | succ k ih =>
    intro e he
    rw [Function.iterate_succ_apply'] at he
    unfold closureStep at he
    rcases Finset.mem_union.1 he with he | he
    · exact ih e he
    · rcases Finset.mem_biUnion.1 he with ⟨p, hp, hep⟩
      exact GroupReach.step (ih p hp) hep

/-- Completeness: every reachable position appears in the computed closure. -/
theorem reach_complete (alts : Alts) (line : List Char) (pos : Nat) :
    ∀ e, GroupReach alts line pos e →
      e ∈ (closureStep (fun p => altEnds alts p line))^[line.length + 2]
        (altEnds alts pos line) := by
  intro e he
  induction he with
  | one hq =>
    exact subset_iterate _ (fun S => Finset.subset_union_left) _ _ hq
  | @step p q hp hq ih =>
    rw [← closure_fix alts line pos]
    unfold closureStep
    exact Finset.mem_union_right _ (Finset.mem_biUnion.2 ⟨p, ih, hq⟩)

/-- If no alternative matches once at `pos`, nothing is reachable. -/
theorem no_reach_of_empty (alts : Alts) (line : List Char) (pos : Nat)
    (h : altEnds alts pos line = ∅) : ∀ p, ¬ GroupReach alts line pos p := by
  intro p hp
  induction hp with
  | one hq =>
    rw [h] at hq
    simp at hq
  | step hp hq ih => exact ih

/-- Characterisation of the `+`-quantified group case of `match_from`: an end
position arises exactly from continuing the rest of the sequence at some
position reachable by one or more occurrences of the group. -/
theorem matchFrom_group_plus_iff (alts : Alts) (rest : Sequence) (pos : Nat)
    (line : List Char) (e : Nat) :
    e ∈ matchFrom (.cons (.group alts .plus) rest) pos line ↔
      ∃ p, GroupReach alts line pos p ∧ e ∈ matchFrom rest p line := by
  rw [matchFrom_cons_group]
  simp only [groupStep]
  split
  case isTrue h0 =>
    simp only [Finset.not_mem_empty, false_iff]
    rintro ⟨p, hp, _⟩
    exact no_reach_of_empty alts line pos h0 p hp
  case isFalse h0 =>
    rw [Finset.mem_biUnion]
    constructor
    · rintro ⟨p, hp, hep⟩
      exact ⟨p, reach_sound alts line pos _ p hp, hep⟩
    · rintro ⟨p, hp, hep⟩
      exact ⟨p, reach_complete alts line pos p hp, hep⟩

/-- Scanning a non-boundary character: the accumulator grows and the fuel
drops. -/
theorem splitlinesAuxF_step (fuel : Nat) (c : Char) (rest acc : List Char)
    (hc : isLineBreak c = false) :
    splitlinesAuxF (fuel + 1) (c :: rest) acc = splitlinesAuxF fuel rest (c :: acc) := by
  show (if isLineBreak c then
      if c = '\r' then
        match rest with
        | '\n' :: r2 =>
            acc.reverse :: (match r2 with | [] => [] | _ => splitlinesAuxF fuel r2 [])
        | _ =>
            acc.reverse :: (match rest with | [] => [] | _ => splitlinesAuxF fuel rest [])
      else
        acc.reverse :: (match rest with | [] => [] | _ => splitlinesAuxF fuel rest [])
    else splitlinesAuxF fuel rest (c :: acc)) = _
  rw [hc]
  rfl

/-- On boundary-free input the accumulator run of `splitlines` produces a
single line. -/
theorem splitlinesAuxF_noBreak : ∀ (fuel : Nat) (s acc : List Char), s.length < fuel →
    (∀ c ∈ s, isLineBreak c = false) →
    splitlinesAuxF fuel s acc = [acc.reverse ++ s] := by
  intro fuel
  induction fuel with
  | zero =>
    intro s acc hlen _
    omega
  | succ fuel ih =>
    intro s acc hlen hnb
    match s with
    | [] => simp [show splitlinesAuxF (fuel + 1) [] acc = [acc.reverse] from rfl]
    | c :: rest =>
      have hc : isLineBreak c = false := hnb c (List.mem_cons_self c rest)
      have hrest : ∀ x ∈ rest, isLineBreak x = false :=
        fun x hx => hnb x (List.mem_cons_of_mem c hx)
      have hlen' : rest.length < fuel := by
        simp only [List.length_cons] at hlen
        omega
      rw [splitlinesAuxF_step fuel c rest acc hc]
      rw [ih rest (c :: acc) hlen' hrest]
      simp

/-- A boundary-free input is its own single line (or no line at all if
empty). -/
theorem splitlines_noBreak (s : List Char) (hnb : ∀ c ∈ s, isLineBreak c = false) :
    splitlines s = if s = [] then [] else [s] := by
  match s with
  | [] => rfl
  | c :: rest =>
    rw [if_neg (by simp)]
    show splitlinesAuxF ((c :: rest).length + 1) (c :: rest) [] = [c :: rest]
    rw [splitlinesAuxF_noBreak ((c :: rest).length + 1) (c :: rest) [] (by omega) hnb]
    simp

/-- For a single (break-free) line and a non-empty compiled sequence, the
driver reduces to `match_in_line`: the extra whole-input scan for unanchored
patterns coincides with the per-line scan. -/
theorem matchesTokens_single (toks : Sequence) (aS aE : Bool) (line : List Char)
    (hnb : ∀ c ∈ line, isLineBreak c = false) (hne : toks ≠ .nil) :
    matchesTokens line aS aE toks = matchInLine toks aS aE line := by
  match toks, hne with
  | .cons t rest, _ =>
    show matchesTokens line aS aE (.cons t rest) = _
    simp only [matchesTokens]
    rw [splitlines_noBreak line hnb]
    have hl : (if ((if line = [] then ([] : List (List Char)) else [line]).isEmpty
          && line.isEmpty) then [([] : List Char)]
        else (if line = [] then [] else [line])) = [line] := by
      by_cases h : line = [] <;> simp [h]
    rw [hl]
    simp only [List.any_cons, List.any_nil, Bool.or_false]
    cases hmil : matchInLine (.cons t rest) aS aE line with
    | true => simp [hmil]
    | false =>
      simp only [hmil, Bool.false_eq_true, if_false]
      cases aS with
      | true => simp [hmil]
      | false =>
        cases aE with
        | true => simp [hmil]
        | false =>
          simp only [Bool.not_false, Bool.and_self, if_true]
          exact hmil

/-- For a break-free line and a non-empty compiled sequence, `match_pattern`
reduces to `match_in_line` on the compiled sequence. -/
theorem matchPattern_single (pattern line : List Char) (toks : Sequence)
    (hnb : ∀ c ∈ line, isLineBreak c = false)
    (hp : parsePattern (coreOf pattern) = .ok toks) (hne : toks ≠ .nil) :
    matchPattern line pattern
      = .ok (matchInLine toks (anchoredStart pattern) (anchoredEnd (stripStart pattern))
          line) := by
  have h : matchPattern line pattern
      = .ok (matchesTokens line (anchoredStart pattern) (anchoredEnd (stripStart pattern))
          toks) := by
    unfold matchPattern
    rw [hp]
  rw [h, matchesTokens_single toks _ _ line hnb hne]

/-- C1: for a non-group token with the `OneOrMore` quantifier at the head of
the remaining sequence, `match_from` scans forward from `position` while the
token's predicate holds to find the maximal run length `maxK`; if `maxK = 0`
it returns the empty set, and otherwise the union over `k = 1..maxK` of the
end-position sets obtained by matching the rest from `position + k` (the
source iterates `k` from `maxK` down to `1`; the union does not depend on
that order).  In particular `matches("aaa","a+") = true`,
`matches("","a+") = false` and `matches("aaab","a+ab") = true`. -/
theorem claim_C1 :
    (∀ (t : Token) (rest : Sequence) (pos : Nat) (line : List Char),
        t.isGroup = false → t.quant = .plus →
        matchFrom (.cons t rest) pos line =
          if runLen t line pos = 0 then ∅
          else (Finset.Icc 1 (runLen t line pos)).biUnion
            (fun k => matchFrom rest (pos + k) line))
    ∧ matchesStr "aaa" "a+" = .ok true
    ∧ matchesStr "" "a+" = .ok false
    ∧ matchesStr "aaab" "a+ab" = .ok true := by
  refine ⟨?_, rfl, rfl, rfl⟩
  intro t rest pos line hng hq
  rw [matchFrom_cons_nonGroup t rest pos line hng, hq]
  rfl

/-- Witness for C1 at a concrete input. -/
theorem claim_C1_witness :
    (Token.literal 'a' .plus).isGroup = false ∧ (Token.literal 'a' .plus).quant = .plus ∧
    matchFrom (.cons (.literal 'a' .plus) .nil) 0 "aab".toList =
      (if runLen (.literal 'a' .plus) "aab".toList 0 = 0 then ∅
       else (Finset.Icc 1 (runLen (.literal 'a' .plus) "aab".toList 0)).biUnion
         (fun k => matchFrom .nil (0 + k) "aab".toList)) :=
  ⟨rfl, rfl, claim_C1.1 (.literal 'a' .plus) .nil 0 "aab".toList rfl rfl⟩

/-- C2: for a group token with the `OneOrMore` quantifier, an end position of
`match_from` arises exactly by continuing the rest of the outer sequence
from some position reachable by one or more consecutive occurrences of the
group (the least fixed point the closure loop computes); if the union of the
alternatives' first-occurrence end positions is empty the result is empty.
In particular `matches("catcatcat","^(cat)+$") = true` and
`matches("catdogcat","(cat|dog)+$") = true`. -/
theorem claim_C2 :
    (∀ (alts : Alts) (rest : Sequence) (pos : Nat) (line : List Char) (e : Nat),
        e ∈ matchFrom (.cons (.group alts .plus) rest) pos line ↔
          ∃ p, GroupReach alts line pos p ∧ e ∈ matchFrom rest p line)
    ∧ (∀ (alts : Alts) (rest : Sequence) (pos : Nat) (line : List Char),
        altEnds alts pos line = ∅ →
        matchFrom (.cons (.group alts .plus) rest) pos line = ∅)
    ∧ matchesStr "catcatcat" "^(cat)+$" = .ok true
    ∧ matchesStr "catdogcat" "(cat|dog)+$" = .ok true := by
  refine ⟨matchFrom_group_plus_iff, ?_, rfl, rfl⟩
  intro alts rest pos line h0
  refine Finset.eq_empty_iff_forall_not_mem.2 fun e he => ?_
  rcases (matchFrom_group_plus_iff alts rest pos line e).1 he with ⟨p, hp, _⟩
  exact no_reach_of_empty alts line pos h0 p hp

/-- Witness for C2 at a concrete input. -/
theorem claim_C2_witness :
    altEnds (.cons (.cons (.literal 'z' .none) .nil) .nil) 0 "a".toList = ∅ ∧
    matchFrom (.cons (.group (.cons (.cons (.literal 'z' .none) .nil) .nil) .plus) .nil) 0
      "a".toList = ∅ :=
  ⟨rfl, claim_C2.2.1 _ .nil 0 "a".toList rfl⟩

/-- C9: the matcher terminates on every token sequence, line and position:
any fuel at least the structural size of the sequence yields the same
(canonical) result, end positions are drawn from the finite range
`pos .. max pos n`, and the reachable-positions closure of a `+`-quantified
group is a fixed point after `n + 2` rounds, so the `while frontier` loop
stops; a `+`-quantified group with an alternative matching the empty string
also terminates, e.g. `matches("ab","(a|)+b") = true`. -/
theorem claim_C9 :
    (∀ (f : Nat) (toks : Sequence) (pos : Nat) (line : List Char),
        toks.size ≤ f → matchFromF f toks pos line = matchFrom toks pos line)
    ∧ (∀ (toks : Sequence) (pos : Nat) (line : List Char) (e : Nat),
        e ∈ matchFrom toks pos line → pos ≤ e ∧ e ≤ max pos line.length)
    ∧ (∀ (alts : Alts) (line : List Char) (pos : Nat),
        closureStep (fun p => altEnds alts p line)
            ((closureStep (fun p => altEnds alts p line))^[line.length + 2]
              (altEnds alts pos line))
          = (closureStep (fun p => altEnds alts p line))^[line.length + 2]
              (altEnds alts pos line))
    ∧ matchesStr "ab" "(a|)+b" = .ok true :=
  ⟨matchFromF_eq_matchFrom, matchFrom_bounds, closure_fix, rfl⟩

/-- Witness for C9 at a concrete input. -/
theorem claim_C9_witness :
    (Sequence.cons (.literal 'a' .none) .nil).size ≤ 5 ∧
    matchFromF 5 (.cons (.literal 'a' .none) .nil) 0 "a".toList
      = matchFrom (.cons (.literal 'a' .none) .nil) 0 "a".toList :=
  ⟨by decide, claim_C9.1 5 _ 0 "a".toList (by decide)⟩

/-- C10: the pattern `[^]` compiles without error to a negated class with an
empty character set, which matches every character, including the newline
that `Dot` rejects; hence every non-empty input matches `[^]`. -/
theorem claim_C10 :
    parsePattern "[^]".toList = .ok (.cons (.cls [] true .none) .nil)
    ∧ tokenMatchesChar (.cls [] true .none) '\n' = true
    ∧ tokenMatchesChar (.dot .none) '\n' = false
    ∧ (∀ input : List Char, input ≠ [] → matchPattern input "[^]".toList = .ok true) := by
  refine ⟨rfl, rfl, rfl, ?_⟩
  intro input hne
  match input, hne with
  | c :: cs, _ =>
    have h1 : matchPattern (c :: cs) "[^]".toList
        = .ok (matchesTokens (c :: cs) false false (.cons (.cls [] true .none) .nil)) := rfl
    rw [h1]
    refine congrArg Except.ok ?_
    have h2 : matchFrom (.cons (.cls [] true .none) .nil) 0 (c :: cs) = {1} := by
      rw [matchFrom_cons_nonGroup (.cls [] true .none) .nil 0 (c :: cs) rfl]
      simp only [Token.quant, nonGroupStep]
      rw [dif_pos (by simp : (0 : Nat) < (c :: cs).length)]
      rw [if_pos (show tokenMatchesChar (.cls [] true .none) ((c :: cs).get ⟨0, by simp⟩)
        = true from rfl)]
      rfl
    have hscan : ((List.range ((c :: cs).length + 1)).any fun start =>
        decide (matchFrom (.cons (.cls [] true .none) .nil) start (c :: cs) ≠ ∅)) = true := by
      rw [List.any_eq_true]
      exact ⟨0, by simp, by simp [h2]⟩
    simp only [matchesTokens]
    by_cases hany : ((if ((splitlines (c :: cs)).isEmpty && (c :: cs).isEmpty) = true
          then [([] : List Char)] else splitlines (c :: cs)).any
        (matchInLine (.cons (.cls [] true .none) .nil) false false)) = true
    · rw [if_pos hany]
    · rw [if_neg hany, if_pos (show ((!false && !false) = true) from rfl)]
      exact hscan

/-- Witness for C10 at a concrete input. -/
theorem claim_C10_witness :
    ("x".toList ≠ ([] : List Char)) ∧ matchPattern "x".toList "[^]".toList = .ok true :=
  ⟨by decide, claim_C10.2.2.2 "x".toList (by decide)⟩

/-- C3 (amended): for a single-line input (one containing no line-boundary
character of `str.splitlines`, see `isLineBreak`) and a pattern whose
compiled sequence is non-empty, the four anchor modes of `match_pattern`
behave as claimed: both anchors succeed iff `n` is an end position from
start `0`; start anchor only iff the end-position set from `0` is
non-empty; end anchor only iff some start in `0..n` yields `n`; no anchors
iff some start yields a non-empty set.  The concrete `^abc$` examples hold.
(The restriction to a non-empty compiled sequence is forced by the source's
empty-pattern special case, see the counterexample.) -/
theorem claim_C3 :
    (∀ (pattern line : List Char) (toks : Sequence),
      (∀ c ∈ line, isLineBreak c = false) →
      parsePattern (coreOf pattern) = .ok toks → toks ≠ .nil →
      ((anchoredStart pattern = true → anchoredEnd (stripStart pattern) = true →
          (matchPattern line pattern = .ok true ↔ line.length ∈ matchFrom toks 0 line))
       ∧ (anchoredStart pattern = true → anchoredEnd (stripStart pattern) = false →
          (matchPattern line pattern = .ok true ↔ (matchFrom toks 0 line).Nonempty))
       ∧ (anchoredStart pattern = false → anchoredEnd (stripStart pattern) = true →
          (matchPattern line pattern = .ok true ↔
            ∃ s ≤ line.length, line.length ∈ matchFrom toks s line))
       ∧ (anchoredStart pattern = false → anchoredEnd (stripStart pattern) = false →
          (matchPattern line pattern = .ok true ↔
            ∃ s ≤ line.length, (matchFrom toks s line).Nonempty))))
    ∧ matchesStr "abc" "^abc$" = .ok true
    ∧ matchesStr "xabc" "^abc$" = .ok false
    ∧ matchesStr "abcx" "^abc$" = .ok false := by
  refine ⟨?_, rfl, rfl, rfl⟩
  intro pattern line toks hnb hp hne
  have hmp := matchPattern_single pattern line toks hnb hp hne
  refine ⟨?_, ?_, ?_, ?_⟩ <;> intro hS hE <;> rw [hS, hE] at hmp <;> rw [hmp]
  · simp [matchInLine]
  · simp [matchInLine, Finset.nonempty_iff_ne_empty]
  · simp [matchInLine, List.any_eq_true, List.mem_range, Nat.lt_succ_iff]
  · simp [matchInLine, List.any_eq_true, List.mem_range, Nat.lt_succ_iff,
      Finset.nonempty_iff_ne_empty]

/-- Witness for the amended C3 at a concrete input. -/
theorem claim_C3_witness :
    matchPattern "a".toList "^a$".toList = .ok true ↔
      "a".toList.length ∈ matchFrom (.cons (.literal 'a' .none) .nil) 0 "a".toList :=
  (claim_C3.1 "^a$".toList "a".toList (.cons (.literal 'a' .none) .nil) (by decide)
    rfl (fun hh => Sequence.noConfusion hh)).1 rfl rfl

/-- Counterexample to C3 as stated: the pattern `^` has only the start
anchor and compiles to the empty sequence, whose end-position set from
position `0` is `{0}`, which is non-empty — yet `matches("abc","^")` is
`false`, because the source special-cases empty patterns (an empty pattern
with an anchor matches only an empty line). -/
theorem claim_C3_counterexample :
    matchPattern "abc".toList "^".toList = .ok false
    ∧ anchoredStart "^".toList = true
    ∧ parsePattern (coreOf "^".toList) = .ok .nil
    ∧ (matchFrom .nil 0 "abc".toList).Nonempty := by
  refine ⟨rfl, rfl, rfl, ⟨0, ?_⟩⟩
  rw [matchFrom_nil]
  simp

/-- One step of the parser on a plain literal atom character. -/
theorem parseAltsF_literal_step (fuel : Nat) (c : Char) (rest : List Char)
    (endChar : Option Char) (h1 : ¬(endChar = Option.some c)) (h2 : ¬(c = '|'))
    (h3 : ¬(c = '\\')) (h4 : ¬(c = '[')) (h5 : ¬(c = '.')) (h6 : ¬(c = '(')) :
    parseAltsF (fuel + 1) (c :: rest) endChar =
      (match attachQuant (.literal c .none) rest with
        | (tok, s2) =>
          match parseAltsF fuel s2 endChar with
          | .error e => .error e
          | .ok (alts, r) => .ok (prependTok tok alts, r)) := by
  simp only [parseAltsF, h1, h2, h3, h4, h5, h6, if_false, ite_false]

/-- A metacharacter-free pattern parses to the single alternative consisting
of its unquantified literal tokens. -/
theorem parse_lits : ∀ (fuel : Nat) (p : List Char), p.length < fuel →
    (∀ c ∈ p, c ∉ metaChars) →
    parseAltsF fuel p Option.none = .ok (.cons (seqOfLits p) .nil, []) := by
  intro fuel
  induction fuel with
  | zero =>
    intro p h _
    omega
  | succ fuel ih =>
    intro p hlen hmeta
    match p with
    | [] => rfl
    | c :: rest =>
      have hc := hmeta c (List.mem_cons_self c rest)
      simp only [metaChars, List.mem_cons, List.not_mem_nil, or_false, not_or] at hc
      obtain ⟨hbs, hlb, hrb, hcar, hdol, hdot, hlp, hrp, hpipe, hplus, hq⟩ := hc
      have hrest : ∀ x ∈ rest, x ∉ metaChars := fun x hx => hmeta x (List.mem_cons_of_mem c hx)
      have hlen' : rest.length < fuel := by
        simp only [List.length_cons] at hlen
        omega
      rw [parseAltsF_literal_step fuel c rest Option.none (by simp) hpipe hbs hlb hdot hlp]
      match rest, hrest, hlen' with
      | [], _, hlen2 =>
        rw [show attachQuant (.literal c .none) [] = (.literal c .none, []) from rfl]
        simp only [ih [] (by omega) (by simp)]
        rfl
      | d :: rest2, hrest2, hlen2 =>
        have hd := hrest2 d (List.mem_cons_self d rest2)
        simp only [metaChars, List.mem_cons, List.not_mem_nil, or_false, not_or] at hd
        have hq2 : ¬(d = '+' ∨ d = '?') := by
          intro h
          rcases h with h | h
          · exact hd.2.2.2.2.2.2.2.2.2.1 h
          · exact hd.2.2.2.2.2.2.2.2.2.2 h
        rw [show attachQuant (.literal c .none) (d :: rest2)
          = (.literal c .none, d :: rest2) from by
            simp only [attachQuant, if_neg hq2]]
        simp only [ih (d :: rest2) (by omega) hrest2]
        rfl

/-- `parse_pattern` on a metacharacter-free pattern. -/
theorem parsePattern_lits (p : List Char) (hmeta : ∀ c ∈ p, c ∉ metaChars) :
    parsePattern p = .ok (seqOfLits p) := by
  unfold parsePattern
  rw [parse_lits (p.length + 1) p (by omega) hmeta]

/-- Matching a sequence of unquantified literals consumes exactly those
characters: it succeeds iff the pattern occurs at `pos`, ending at
`pos + length`. -/
theorem matchFrom_lits : ∀ (w : List Char) (pos : Nat) (line : List Char),
    matchFrom (seqOfLits w) pos line =
      if (line.drop pos).take w.length = w then {pos + w.length} else ∅ := by
  intro w
  induction w with
  | nil =>
    intro pos line
    simp [seqOfLits, matchFrom_nil]
  | cons c w ih =>
    intro pos line
    show matchFrom (.cons (.literal c .none) (seqOfLits w)) pos line = _
    rw [matchFrom_cons_nonGroup (.literal c .none) (seqOfLits w) pos line rfl]
    simp only [Token.quant, nonGroupStep]
    by_cases h : pos < line.length
    · rw [dif_pos h]
      have hdrop : line.drop pos = line.get ⟨pos, h⟩ :: line.drop (pos + 1) := by
        rw [List.drop_eq_getElem_cons h]
        simp
      by_cases hm : tokenMatchesChar (.literal c .none) (line.get ⟨pos, h⟩) = true
      · rw [if_pos hm, ih]
        have hcc : line.get ⟨pos, h⟩ = c := by
          simpa [tokenMatchesChar] using hm
        rw [hdrop, hcc, List.length_cons, List.take_succ_cons]
        simp only [List.cons.injEq, true_and]
        have harith : pos + 1 + w.length = pos + (w.length + 1) := by omega
        rw [harith]
      · rw [if_neg hm]
        have hcc : ¬(line.get ⟨pos, h⟩ = c) := by
          simpa [tokenMatchesChar] using hm
        rw [hdrop, List.length_cons, List.take_succ_cons]
        rw [if_neg (by
          intro heq
          injection heq with heq1 heq2
          exact hcc heq1)]
    · rw [dif_neg h]
      have hdrop : line.drop pos = [] := List.drop_eq_nil_of_le (by omega)
      rw [hdrop]
      simp

/-- Occurrence at some offset is the same as substring decomposition. -/
theorem substring_iff (p line : List Char) :
    (∃ s ≤ line.length, (line.drop s).take p.length = p) ↔
      ∃ u v, line = u ++ p ++ v := by
  constructor
  · rintro ⟨s, hs, hp⟩
    refine ⟨line.take s, line.drop (s + p.length), ?_⟩
    have h2 : line.drop s = p ++ line.drop (s + p.length) := by
      conv_lhs => rw [← List.take_append_drop p.length (line.drop s)]
      rw [hp, List.drop_drop]
    conv_lhs => rw [← List.take_append_drop s line, h2]
    rw [List.append_assoc]
  · rintro ⟨u, v, rfl⟩
    refine ⟨u.length, ?_, ?_⟩
    · simp
    · rw [List.append_assoc, List.drop_left, List.take_left]

/-- C4 (amended): for a pattern of literal characters only (no
metacharacter among `\ [ ] ^ $ . ( ) | + ?`) and an input line free of
every line-boundary character of `str.splitlines` (see `isLineBreak`),
`matches` is exactly substring containment, and under both anchors it is
exact equality.  (The strengthening of "newline-free" to boundary-free is
forced by the extra boundaries of `str.splitlines`, see the counterexample:
`"a\x0bb"` contains no newline yet is split at the vertical tab.) -/
theorem claim_C4 :
    ∀ (p line : List Char), (∀ c ∈ p, c ∉ metaChars) →
      (∀ c ∈ line, isLineBreak c = false) →
      ((matchPattern line p = .ok true ↔ ∃ u v, line = u ++ p ++ v)
       ∧ (matchPattern line ('^' :: (p ++ ['$'])) = .ok true ↔ line = p)) := by
  intro p line hmeta hnb
  have haS : anchoredStart p = false := by
    match p with
    | [] => rfl
    | c :: rest =>
      have hcar : c ≠ '^' := by
        intro hcc
        exact (hmeta c (List.mem_cons_self c rest)) (by rw [hcc]; simp [metaChars])
      simp [anchoredStart, hcar]
  have hstrip : stripStart p = p := by
    simp [stripStart, haS]
  have haE : anchoredEnd p = false := by
    cases hgl : p.getLast? with
    | none => simp [anchoredEnd, hgl]
    | some a =>
      have ha : a ≠ '$' := by
        intro hcc
        exact (hmeta a (List.mem_of_getLast?_eq_some hgl)) (by rw [hcc]; simp [metaChars])
      simp [anchoredEnd, hgl, ha]
  have hcore : coreOf p = p := by
    simp [coreOf, hstrip, stripEnd, haE]
  have hparse : parsePattern (coreOf p) = .ok (seqOfLits p) := by
    rw [hcore]
    exact parsePattern_lits p hmeta
  have haS2 : anchoredStart ('^' :: (p ++ ['$'])) = true := rfl
  have hstrip2 : stripStart ('^' :: (p ++ ['$'])) = p ++ ['$'] := rfl
  have haE2 : anchoredEnd (p ++ ['$']) = true := by
    simp [anchoredEnd, List.getLast?_concat]
  have hcore2 : coreOf ('^' :: (p ++ ['$'])) = p := by
    simp only [coreOf, hstrip2, stripEnd, haE2, if_true, List.dropLast_concat]
  have hparse2 : parsePattern (coreOf ('^' :: (p ++ ['$']))) = .ok (seqOfLits p) := by
    rw [hcore2]
    exact parsePattern_lits p hmeta
  constructor
  · by_cases hp0 : p = []
    · subst hp0
      constructor
      · intro _
        exact ⟨[], line, by simp⟩
      · intro _
        rfl
    · have hne : seqOfLits p ≠ .nil := by
        match p, hp0 with
        | c :: rest, _ => exact fun hh => Sequence.noConfusion hh
      have hmp := matchPattern_single p line (seqOfLits p) hnb hparse hne
      rw [haS, hstrip, haE] at hmp
      rw [hmp]
      simp only [Except.ok.injEq]
      have hscan : matchInLine (seqOfLits p) false false line = true ↔
          ∃ s ≤ line.length, (line.drop s).take p.length = p := by
        show ((List.range (line.length + 1)).any
          fun start => decide (matchFrom (seqOfLits p) start line ≠ ∅)) = true ↔ _
        rw [List.any_eq_true]
        constructor
        · rintro ⟨s, hs, hdec⟩
          rw [List.mem_range] at hs
          refine ⟨s, by omega, ?_⟩
          have hne2 : matchFrom (seqOfLits p) s line ≠ ∅ := of_decide_eq_true hdec
          rw [matchFrom_lits] at hne2
          by_contra htake
          rw [if_neg htake] at hne2
          exact hne2 rfl
        · rintro ⟨s, hs, htake⟩
          refine ⟨s, by rw [List.mem_range]; omega, ?_⟩
          rw [decide_eq_true_iff, matchFrom_lits, if_pos htake]
          simp
      rw [hscan]
      exact substring_iff p line
  · by_cases hp0 : p = []
    · subst hp0
      have hmp : matchPattern line ('^' :: ([] ++ ['$']))
          = .ok (matchesTokens line true true .nil) := by
        unfold matchPattern
        rw [hparse2]
        rfl
      rw [hmp]
      simp only [Except.ok.injEq]
      simp only [matchesTokens]
      rw [splitlines_noBreak line hnb]
      by_cases hl : line = []
      · subst hl
        simp
      · rw [if_neg hl]
        simp [hl, List.isEmpty_iff]
    · have hne : seqOfLits p ≠ .nil := by
        match p, hp0 with
        | c :: rest, _ => exact fun hh => Sequence.noConfusion hh
      have hmp := matchPattern_single ('^' :: (p ++ ['$'])) line (seqOfLits p) hnb hparse2 hne
      rw [haS2, hstrip2, haE2] at hmp
      rw [hmp]
      simp only [Except.ok.injEq]
      show decide (line.length ∈ matchFrom (seqOfLits p) 0 line) = true ↔ line = p
      rw [decide_eq_true_iff, matchFrom_lits]
      constructor
      · intro hmem
        split at hmem
        · rename_i htake
          rw [Finset.mem_singleton] at hmem
          rw [List.drop_zero] at htake
          have hlen : line.length = p.length := by omega
          rw [← hlen] at htake
          rw [List.take_length] at htake
          exact htake
        · simp at hmem
      · rintro rfl
        rw [List.drop_zero, List.take_length, if_pos rfl]
        simp

/-- Witness for the amended C4 at a concrete input. -/
theorem claim_C4_witness :
    (matchPattern "xaby".toList "ab".toList = .ok true ↔
      ∃ u v, "xaby".toList = u ++ "ab".toList ++ v)
    ∧ (matchPattern "ab".toList ('^' :: ("ab".toList ++ ['$'])) = .ok true ↔
      "ab".toList = "ab".toList) :=
  ⟨(claim_C4 "ab".toList "xaby".toList (by decide) (by decide)).1,
   (claim_C4 "ab".toList "ab".toList (by decide) (by decide)).2⟩

/-- Counterexample to C4 as stated: the input `"a\x0bb"` contains no
newline (and no carriage return), and the pattern `"a"` is literal-only,
yet `matches("a\x0bb", "^a$")` is true while the input differs from the
pattern — `str.splitlines` also splits at the vertical tab `\x0b` (and at
`\x0c`, `\x1c`–`\x1e`, `\x85`, `\u2028`, `\u2029`), so the line `"a"`
matches; the claimed equality characterisation fails for a merely
newline-free input. -/
theorem claim_C4_counterexample :
    (∀ c ∈ "a".toList, c ∉ metaChars)
    ∧ '\n' ∉ "a\x0bb".toList
    ∧ '\r' ∉ "a\x0bb".toList
    ∧ matchPattern "a\x0bb".toList ('^' :: ("a".toList ++ ['$'])) = .ok true
    ∧ "a\x0bb".toList ≠ "a".toList :=
  ⟨by decide, by decide, by decide, rfl, by decide⟩

/-- Counterexample to C5 as stated: on the multi-line input `"a\nb"` with
the unanchored pattern `"\n"` (a literal newline), no newline-delimited line
matches — the per-line OR is false — yet `matches` returns true, because for
unanchored patterns the source additionally scans the entire raw input
(including its newline characters) after the per-line loop fails. -/
theorem claim_C5_counterexample :
    matchPattern "a\nb".toList "\n".toList = .ok true
    ∧ anchoredStart "\n".toList = false
    ∧ anchoredEnd (stripStart "\n".toList) = false
    ∧ parsePattern (coreOf "\n".toList) = .ok (.cons (.literal '\n' .none) .nil)
    ∧ ((splitlines "a\nb".toList).any
        (matchInLine (.cons (.literal '\n' .none) .nil) false false) = false) :=
  ⟨rfl, rfl, rfl, rfl, rfl⟩

/-- C5 (amended): for a pattern whose compiled sequence is non-empty, the
result on any input is the OR of the per-line results, except that when
neither anchor is present the engine additionally scans the whole raw input
and also succeeds if the sequence matches anywhere in it; when at least one
anchor is present the result is exactly the per-line OR. -/
theorem claim_C5 :
    (∀ (pattern input : List Char) (toks : Sequence),
      parsePattern (coreOf pattern) = .ok toks → toks ≠ .nil →
      matchPattern input pattern = .ok (
        ((if (splitlines input).isEmpty && input.isEmpty then [([] : List Char)]
          else splitlines input).any
            (matchInLine toks (anchoredStart pattern) (anchoredEnd (stripStart pattern))))
        || (!(anchoredStart pattern) && !(anchoredEnd (stripStart pattern))
            && (List.range (input.length + 1)).any
              (fun start => decide (matchFrom toks start input ≠ ∅)))))
    ∧ (∀ (pattern input : List Char) (toks : Sequence),
      parsePattern (coreOf pattern) = .ok toks → toks ≠ .nil →
      (anchoredStart pattern = true ∨ anchoredEnd (stripStart pattern) = true) →
      matchPattern input pattern = .ok (
        ((if (splitlines input).isEmpty && input.isEmpty then [([] : List Char)]
          else splitlines input).any
            (matchInLine toks (anchoredStart pattern)
              (anchoredEnd (stripStart pattern)))))) := by
  have hmain : ∀ (pattern input : List Char) (toks : Sequence),
      parsePattern (coreOf pattern) = .ok toks → toks ≠ .nil →
      matchPattern input pattern = .ok (
        ((if (splitlines input).isEmpty && input.isEmpty then [([] : List Char)]
          else splitlines input).any
            (matchInLine toks (anchoredStart pattern) (anchoredEnd (stripStart pattern))))
        || (!(anchoredStart pattern) && !(anchoredEnd (stripStart pattern))
            && (List.range (input.length + 1)).any
              (fun start => decide (matchFrom toks start input ≠ ∅)))) := by
    intro pattern input toks hp hne
    have h : matchPattern input pattern
        = .ok (matchesTokens input (anchoredStart pattern) (anchoredEnd (stripStart pattern))
            toks) := by
      unfold matchPattern
      rw [hp]
    rw [h]
    refine congrArg Except.ok ?_
    match toks, hne with
    | .cons t rest, _ =>
      simp only [matchesTokens]
      generalize ((if ((splitlines input).isEmpty && input.isEmpty) = true
          then [([] : List Char)] else splitlines input).any
        (matchInLine (.cons t rest) (anchoredStart pattern)
          (anchoredEnd (stripStart pattern)))) = A
      cases A
      · cases hS : anchoredStart pattern <;>
          cases hE : anchoredEnd (stripStart pattern) <;> simp
      · simp
  refine ⟨hmain, ?_⟩
  intro pattern input toks hp hne hanch
  rw [hmain pattern input toks hp hne]
  refine congrArg Except.ok ?_
  rcases hanch with hS | hE
  · rw [hS]
    simp
  · rw [hE]
    simp

/-- Witness for the amended C5 at a concrete input. -/
theorem claim_C5_witness :
    matchPattern "a\nb".toList "a".toList = .ok (
      ((if (splitlines "a\nb".toList).isEmpty && "a\nb".toList.isEmpty
          then [([] : List Char)] else splitlines "a\nb".toList).any
        (matchInLine (.cons (.literal 'a' .none) .nil) (anchoredStart "a".toList)
          (anchoredEnd (stripStart "a".toList))))
      || (!(anchoredStart "a".toList) && !(anchoredEnd (stripStart "a".toList))
          && (List.range ("a\nb".toList.length + 1)).any
            (fun start => decide (matchFrom (.cons (.literal 'a' .none) .nil) start
              "a\nb".toList ≠ ∅)))) :=
  claim_C5.1 "a".toList "a\nb".toList (.cons (.literal 'a' .none) .nil) rfl
    (fun hh => Sequence.noConfusion hh)

/-- C7: a quantifier character immediately after an atom attaches to exactly
that atom and quantifiers never stack: with an atom followed by two
quantifier characters, the first attaches and the second is parsed as a new
separate literal token; e.g. `a++` parses to `[a+, literal '+']`, `a+?` to
`[a+, literal '?']`, `(a)++` to `[(a)+, literal '+']` and `[ab]?+` to
`[[ab]?, literal '+']`. -/
theorem claim_C7 :
    (∀ (c q1 q2 : Char), ¬(c = '\\') → ¬(c = '[') → ¬(c = '.') → ¬(c = '(') → ¬(c = '|') →
        (q1 = '+' ∨ q1 = '?') → (q2 = '+' ∨ q2 = '?') →
        parsePattern [c, q1, q2] =
          .ok (.cons (.literal c (quantOf q1)) (.cons (.literal q2 .none) .nil)))
    ∧ parsePattern "a++".toList
        = .ok (.cons (.literal 'a' .plus) (.cons (.literal '+' .none) .nil))
    ∧ parsePattern "a+?".toList
        = .ok (.cons (.literal 'a' .plus) (.cons (.literal '?' .none) .nil))
    ∧ parsePattern "(a)++".toList
        = .ok (.cons (.group (.cons (.cons (.literal 'a' .none) .nil) .nil) .plus)
            (.cons (.literal '+' .none) .nil))
    ∧ parsePattern "[ab]?+".toList
        = .ok (.cons (.cls ['a', 'b'] false .question) (.cons (.literal '+' .none) .nil)) := by
  refine ⟨?_, rfl, rfl, rfl, rfl⟩
  intro c q1 q2 hbs hlb hdot hlp hpipe hq1 hq2
  have h1 : ¬(q2 = '|') := by rcases hq2 with rfl | rfl <;> decide
  have h2 : ¬(q2 = '\\') := by rcases hq2 with rfl | rfl <;> decide
  have h3 : ¬(q2 = '[') := by rcases hq2 with rfl | rfl <;> decide
  have h4 : ¬(q2 = '.') := by rcases hq2 with rfl | rfl <;> decide
  have h5 : ¬(q2 = '(') := by rcases hq2 with rfl | rfl <;> decide
  unfold parsePattern
  rw [show ([c, q1, q2].length + 1) = 3 + 1 from rfl]
  rw [parseAltsF_literal_step 3 c [q1, q2] Option.none (by simp) hpipe hbs hlb hdot hlp]
  rw [show attachQuant (.literal c .none) [q1, q2] = (.literal c (quantOf q1), [q2]) from by
    simp only [attachQuant, if_pos hq1, Token.setQuant]]
  rw [show (3 : Nat) = 2 + 1 from rfl]
  simp only [parseAltsF_literal_step 2 q2 [] Option.none (by simp) h1 h2 h3 h4 h5]
  rfl

/-- Witness for C7 at a concrete input. -/
theorem claim_C7_witness :
    parsePattern ['b', '+', '+']
      = .ok (.cons (.literal 'b' (quantOf '+')) (.cons (.literal '+' .none) .nil)) :=
  claim_C7.1 'b' '+' '+' (by decide) (by decide) (by decide) (by decide) (by decide)
    (Or.inl rfl) (Or.inl rfl)

/-- Changing the quantifier slot preserves group well-formedness. -/
theorem TokenOK_setQuant {t : Token} (h : TokenOK t) (q : Quant) : TokenOK (t.setQuant q) := by
  cases h with
  | literal c q0 => exact TokenOK.literal c q
  | digit q0 => exact TokenOK.digit q
  | word q0 => exact TokenOK.word q
  | cls cs neg q0 => exact TokenOK.cls cs neg q
  | dot q0 => exact TokenOK.dot q
  | group alts q0 hne hok => exact TokenOK.group alts q hne hok

/-- Attaching a quantifier preserves group well-formedness. -/
theorem attachQuant_ok {t : Token} (h : TokenOK t) (s : List Char) :
    TokenOK (attachQuant t s).1 := by
  match s with
  | [] => exact h
  | c :: rest =>
    simp only [attachQuant]
    split
    · exact TokenOK_setQuant h _
    · exact h

/-- Prepending a well-formed token to well-formed alternatives keeps them
well-formed and non-empty. -/
theorem prependTok_ok {t : Token} {a : Alts} (ht : TokenOK t) (ha : AltsOK a) :
    AltsOK (prependTok t a) ∧ prependTok t a ≠ .nil := by
  cases a with
  | nil =>
    exact ⟨AltsOK.cons _ _ (SequenceOK.cons _ _ ht SequenceOK.nil) AltsOK.nil,
      fun hh => Alts.noConfusion hh⟩
  | cons s rest =>
    cases ha with
    | cons _ _ hs hrest =>
      exact ⟨AltsOK.cons _ _ (SequenceOK.cons _ _ ht hs) hrest,
        fun hh => Alts.noConfusion hh⟩

/-- Parser invariant: a successful parse always produces a non-empty,
well-formed alternatives list (every group inside, at any depth, has at
least one alternative). -/
theorem parseAltsF_ok : ∀ (fuel : Nat) (s : List Char) (endChar : Option Char)
    (alts : Alts) (r : List Char), parseAltsF fuel s endChar = .ok (alts, r) →
    AltsOK alts ∧ alts ≠ .nil := by
  intro fuel
  induction fuel with
  | zero =>
    intro s endChar alts r h
    simp [parseAltsF] at h
  | succ fuel ih =>
    intro s endChar alts r h
    match s with
    | [] =>
      match endChar, h with
      | Option.none, h =>
        simp only [parseAltsF, Except.ok.injEq, Prod.mk.injEq] at h
        obtain ⟨h1, h2⟩ := h
        subst h1
        exact ⟨AltsOK.cons _ _ SequenceOK.nil AltsOK.nil, fun hh => Alts.noConfusion hh⟩
      | Option.some c, h =>
        exact absurd h (by simp [parseAltsF])
    | c :: rest =>
      simp only [parseAltsF] at h
      split at h
      · rw [Except.ok.injEq, Prod.mk.injEq] at h
        obtain ⟨h1, h2⟩ := h
        subst h1
        exact ⟨AltsOK.cons _ _ SequenceOK.nil AltsOK.nil, fun hh => Alts.noConfusion hh⟩
      · split at h
        · split at h
          · exact absurd h (by simp)
          · rename_i alts1 r1 heq1
            rw [Except.ok.injEq, Prod.mk.injEq] at h
            obtain ⟨h1, h2⟩ := h
            subst h1
            obtain ⟨hok1, _⟩ := ih rest endChar alts1 r1 heq1
            exact ⟨AltsOK.cons _ _ SequenceOK.nil hok1, fun hh => Alts.noConfusion hh⟩
        · split at h
          · exact absurd h (by simp)
          · rename_i tok0 s1 heq1
            have htok0 : TokenOK tok0 := by
              split at heq1
              · split at heq1
                · rw [Except.ok.injEq, Prod.mk.injEq] at heq1
                  obtain ⟨h1, _⟩ := heq1
                  subst h1
                  exact TokenOK.literal _ _
                · split at heq1
                  · rw [Except.ok.injEq, Prod.mk.injEq] at heq1
                    obtain ⟨h1, _⟩ := heq1
                    subst h1
                    exact TokenOK.digit _
                  · split at heq1
                    · rw [Except.ok.injEq, Prod.mk.injEq] at heq1
                      obtain ⟨h1, _⟩ := heq1
                      subst h1
                      exact TokenOK.word _
                    · rw [Except.ok.injEq, Prod.mk.injEq] at heq1
                      obtain ⟨h1, _⟩ := heq1
                      subst h1
                      exact TokenOK.literal _ _
              · split at heq1
                · split at heq1
                  · split at heq1
                    · rw [Except.ok.injEq, Prod.mk.injEq] at heq1
                      obtain ⟨h1, _⟩ := heq1
                      subst h1
                      exact TokenOK.cls _ _ _
                    · rw [Except.ok.injEq, Prod.mk.injEq] at heq1
                      obtain ⟨h1, _⟩ := heq1
                      subst h1
                      exact TokenOK.cls _ _ _
                  · exact absurd heq1 (by simp)
                · split at heq1
                  · rw [Except.ok.injEq, Prod.mk.injEq] at heq1
                    obtain ⟨h1, _⟩ := heq1
                    subst h1
                    exact TokenOK.dot _
                  · split at heq1
                    · split at heq1
                      · exact absurd heq1 (by simp)
                      · rename_i inner r2 heq2
                        rw [Except.ok.injEq, Prod.mk.injEq] at heq1
                        obtain ⟨h1, _⟩ := heq1
                        subst h1
                        obtain ⟨hok2, hne2⟩ := ih rest (Option.some ')') inner r2 heq2
                        exact TokenOK.group _ _ hne2 hok2
                    · rw [Except.ok.injEq, Prod.mk.injEq] at heq1
                      obtain ⟨h1, _⟩ := heq1
                      subst h1
                      exact TokenOK.literal _ _
            split at h
            · exact absurd h (by simp)
            · rename_i alts2 r2 heq3
              rw [Except.ok.injEq, Prod.mk.injEq] at h
              obtain ⟨h1, h2⟩ := h
              subst h1
              have htok : TokenOK (attachQuant tok0 s1).1 := attachQuant_ok htok0 s1
              obtain ⟨hok3, _⟩ := ih _ endChar alts2 r2 heq3
              exact prependTok_ok htok hok3

/-- C8: every successful compilation yields a token tree in which every
group (including the implicit top-level group created for unparenthesized
alternation) has a non-empty alternatives list. -/
theorem claim_C8 :
    ∀ (p : List Char) (toks : Sequence), parsePattern p = .ok toks → SequenceOK toks := by
  intro p toks h
  unfold parsePattern at h
  split at h
  · exact absurd h (by simp)
  · rename_i alts r heq
    obtain ⟨hok, hne⟩ := parseAltsF_ok _ _ _ _ _ heq
    split at h
    · rename_i s
      rw [Except.ok.injEq] at h
      subst h
      cases hok with
      | cons _ _ hs _ => exact hs
    · rw [Except.ok.injEq] at h
      subst h
      exact SequenceOK.cons _ _ (TokenOK.group _ _ hne hok) SequenceOK.nil

/-- Witness for C8 at a concrete input. -/
theorem claim_C8_witness :
    SequenceOK (.cons (.group (.cons (.cons (.literal 'a' .none) .nil)
      (.cons (.cons (.literal 'b' .none) .nil) .nil)) .none) .nil) :=
  claim_C8 "a|b".toList _ rfl

/-- The remainder after quantifier attachment is a suffix of the input. -/
theorem attachQuant_snd_suffix (t : Token) (s : List Char) : (attachQuant t s).2 <:+ s := by
  match s with
  | [] => exact List.nil_suffix
  | c :: rest =>
    simp only [attachQuant]
    split
    · exact List.suffix_cons c rest
    · exact List.suffix_refl _

/-- A non-quantifier character survives quantifier attachment. -/
theorem attachQuant_snd_mem (t : Token) (s : List Char) (x : Char) (hx : x ∈ s)
    (h1 : ¬(x = '+')) (h2 : ¬(x = '?')) : x ∈ (attachQuant t s).2 := by
  match s with
  | [] => exact hx
  | c :: rest =>
    simp only [attachQuant]
    split
    · rename_i hq
      rcases List.mem_cons.1 hx with rfl | hx2
      · rcases hq with hq | hq
        · exact absurd hq h1
        · exact absurd hq h2
      · exact hx2
    · exact hx

/-- Parser step on a matched end character. -/
theorem parseAltsF_endchar_step (fuel : Nat) (c : Char) (rest : List Char)
    (endChar : Option Char) (h : endChar = Option.some c) :
    parseAltsF (fuel + 1) (c :: rest) endChar = .ok (.cons .nil .nil, rest) := by
  simp only [parseAltsF, if_pos h]

/-- Parser step on an alternation bar. -/
theorem parseAltsF_pipe_step (fuel : Nat) (rest : List Char) (endChar : Option Char)
    (h : ¬(endChar = Option.some '|')) :
    parseAltsF (fuel + 1) ('|' :: rest) endChar =
      (match parseAltsF fuel rest endChar with
        | .error e => .error e
        | .ok (alts, r) => .ok (.cons .nil alts, r)) := by
  simp only [parseAltsF, if_neg h]
  simp

/-- Parser step on a class opener with no closing bracket: the
`UnterminatedClass` error. -/
theorem parseAltsF_class_unterminated (fuel : Nat) (rest : List Char)
    (endChar : Option Char) (h : ¬(endChar = Option.some '[')) (hrb : ']' ∉ rest) :
    parseAltsF (fuel + 1) ('[' :: rest) endChar = .error .unterminatedClass := by
  simp only [parseAltsF, if_neg h, hrb]
  rfl

/-- Parser step on a dot atom. -/
theorem parseAltsF_dot_step (fuel : Nat) (rest : List Char) (endChar : Option Char)
    (h : ¬(endChar = Option.some '.')) :
    parseAltsF (fuel + 1) ('.' :: rest) endChar =
      (match attachQuant (.dot .none) rest with
        | (tok, s2) =>
          match parseAltsF fuel s2 endChar with
          | .error e => .error e
          | .ok (alts, r) => .ok (prependTok tok alts, r)) := by
  simp only [parseAltsF, if_neg h]
  rfl

/-- Parser step on a group opener. -/
theorem parseAltsF_lparen_step (fuel : Nat) (rest : List Char) (endChar : Option Char)
    (h : ¬(endChar = Option.some '(')) :
    parseAltsF (fuel + 1) ('(' :: rest) endChar =
      (match parseAltsF fuel rest (Option.some ')') with
        | .error e => .error e
        | .ok (innerAlts, r1) =>
          match attachQuant (.group innerAlts .none) r1 with
          | (tok, s2) =>
            match parseAltsF fuel s2 endChar with
            | .error e => .error e
            | .ok (alts, r) => .ok (prependTok tok alts, r)) := by
  simp only [parseAltsF, if_neg h]
  cases hpi : parseAltsF fuel rest (Option.some ')') with
  | error e => rfl
  | ok pr =>
    obtain ⟨innerAlts, r1⟩ := pr
    rfl

/-- The unconsumed remainder returned by the parser is a suffix of its
input. -/
theorem parse_suffix : ∀ (fuel : Nat) (s : List Char) (endChar : Option Char)
    (alts : Alts) (r : List Char), parseAltsF fuel s endChar = .ok (alts, r) → r <:+ s := by
  intro fuel
  induction fuel with
  | zero =>
    intro s endChar alts r h
    simp [parseAltsF] at h
  | succ fuel ih =>
    intro s endChar alts r h
    match s with
    | [] =>
      match endChar, h with
      | Option.none, h =>
        simp only [parseAltsF, Except.ok.injEq, Prod.mk.injEq] at h
        obtain ⟨h1, h2⟩ := h
        subst h2
        exact List.nil_suffix
      | Option.some c, h =>
        exact absurd h (by simp [parseAltsF])
    | c :: rest =>
      simp only [parseAltsF] at h
      split at h
      · rw [Except.ok.injEq, Prod.mk.injEq] at h
        obtain ⟨h1, h2⟩ := h
        subst h2
        exact List.suffix_cons c rest
      · split at h
        · split at h
          · exact absurd h (by simp)
          · rename_i alts1 r1 heq1
            rw [Except.ok.injEq, Prod.mk.injEq] at h
            obtain ⟨h1, h2⟩ := h
            subst h2
            exact (ih rest endChar alts1 r1 heq1).trans (List.suffix_cons c rest)
        · split at h
          · exact absurd h (by simp)
          · rename_i tok0 s1 heq1
            have hs1 : s1 <:+ rest := by
              split at heq1
              · split at heq1
                · rw [Except.ok.injEq, Prod.mk.injEq] at heq1
                  obtain ⟨_, h2⟩ := heq1
                  subst h2
                  exact List.nil_suffix
                · split at heq1
                  · rw [Except.ok.injEq, Prod.mk.injEq] at heq1
                    obtain ⟨_, h2⟩ := heq1
                    subst h2
                    exact List.suffix_cons _ _
                  · split at heq1
                    · rw [Except.ok.injEq, Prod.mk.injEq] at heq1
                      obtain ⟨_, h2⟩ := heq1
                      subst h2
                      exact List.suffix_cons _ _
                    · rw [Except.ok.injEq, Prod.mk.injEq] at heq1
                      obtain ⟨_, h2⟩ := heq1
                      subst h2
                      exact List.suffix_cons _ _
              · split at heq1
                · split at heq1
                  · split at heq1
                    · rw [Except.ok.injEq, Prod.mk.injEq] at heq1
                      obtain ⟨_, h2⟩ := heq1
                      subst h2
                      exact (List.drop_suffix 1 _).trans (List.dropWhile_suffix _)
                    · rw [Except.ok.injEq, Prod.mk.injEq] at heq1
                      obtain ⟨_, h2⟩ := heq1
                      subst h2
                      exact (List.drop_suffix 1 _).trans (List.dropWhile_suffix _)
                  · exact absurd heq1 (by simp)
                · split at heq1
                  · rw [Except.ok.injEq, Prod.mk.injEq] at heq1
                    obtain ⟨_, h2⟩ := heq1
                    subst h2
                    exact List.suffix_refl _
                  · split at heq1
                    · split at heq1
                      · exact absurd heq1 (by simp)
                      · rename_i inner r2 heq2
                        rw [Except.ok.injEq, Prod.mk.injEq] at heq1
                        obtain ⟨_, h2⟩ := heq1
                        subst h2
                        exact ih rest (Option.some ')') inner r2 heq2
                    · rw [Except.ok.injEq, Prod.mk.injEq] at heq1
                      obtain ⟨_, h2⟩ := heq1
                      subst h2
                      exact List.suffix_refl _
            split at h
            · exact absurd h (by simp)
            · rename_i alts2 r2 heq3
              rw [Except.ok.injEq, Prod.mk.injEq] at h
              obtain ⟨h1, h2⟩ := h
              subst h2
              have h4 : r2 <:+ (attachQuant tok0 s1).2 := ih _ endChar alts2 r2 heq3
              exact ((h4.trans (attachQuant_snd_suffix tok0 s1)).trans hs1).trans
                (List.suffix_cons c rest)

/-- In an escape-free pattern with a `[` but no `]`, parsing either raises
`UnterminatedClass` or stops at an end character with the `[` still
unconsumed (which cannot happen at top level). -/
theorem parse_unterminated_class : ∀ (fuel : Nat) (s : List Char) (endChar : Option Char),
    s.length < fuel → '\\' ∉ s → ']' ∉ s → '[' ∈ s →
    (endChar = Option.none ∨ endChar = Option.some ')') →
    (parseAltsF fuel s endChar = .error .unterminatedClass ∨
      (∃ alts r, parseAltsF fuel s endChar = .ok (alts, r) ∧ '[' ∈ r ∧
        endChar ≠ Option.none)) := by
  intro fuel
  induction fuel with
  | zero =>
    intro s endChar hlen _ _ _ _
    omega
  | succ fuel ih =>
    intro s endChar hlen hbs hrb hin hec
    match s with
    | [] => exact absurd hin (by simp)
    | c :: rest =>
      have hbs' : '\\' ∉ rest := fun hx => hbs (List.mem_cons_of_mem c hx)
      have hrb' : ']' ∉ rest := fun hx => hrb (List.mem_cons_of_mem c hx)
      have hlen' : rest.length < fuel := by
        simp only [List.length_cons] at hlen
        omega
      by_cases hend : endChar = Option.some c
      · rw [parseAltsF_endchar_step fuel c rest endChar hend]
        right
        have hcr : c = ')' := by
          rcases hec with h | h
          · rw [h] at hend
            exact absurd hend (by simp)
          · rw [h] at hend
            injection hend with h10
            exact h10.symm
        have hinr : '[' ∈ rest := by
          rcases List.mem_cons.1 hin with h9 | h9
          · rw [← h9] at hcr
            exact absurd hcr (by decide)
          · exact h9
        refine ⟨_, _, rfl, hinr, ?_⟩
        rcases hec with h | h
        · rw [h] at hend
          exact absurd hend (by simp)
        · rw [h]
          simp
      · by_cases hpipe : c = '|'
        · subst hpipe
          rw [parseAltsF_pipe_step fuel rest endChar hend]
          have hinr : '[' ∈ rest := by
            rcases List.mem_cons.1 hin with h9 | h9
            · exact absurd h9 (by decide)
            · exact h9
          rcases ih rest endChar hlen' hbs' hrb' hinr hec with herr | ⟨alts1, r1, hok, hr1, hne0⟩
          · rw [herr]
            left
            rfl
          · rw [hok]
            right
            exact ⟨_, _, rfl, hr1, hne0⟩
        · by_cases hlb : c = '['
          · subst hlb
            rw [parseAltsF_class_unterminated fuel rest endChar
              (by rcases hec with h | h <;> rw [h] <;> simp) hrb']
            left
            rfl
          · by_cases hlp : c = '('
            · subst hlp
              rw [parseAltsF_lparen_step fuel rest endChar
                (by rcases hec with h | h <;> rw [h] <;> simp)]
              have hinr : '[' ∈ rest := by
                rcases List.mem_cons.1 hin with h9 | h9
                · exact absurd h9 (by decide)
                · exact h9
              rcases ih rest (Option.some ')') hlen' hbs' hrb' hinr (Or.inr rfl) with
                herr | ⟨inner, r1, hok, hr1, _⟩
              · rw [herr]
                left
                rfl
              · rw [hok]
                obtain ⟨tok, s2, hAQ⟩ : ∃ tok s2, attachQuant (.group inner .none) r1
                    = (tok, s2) := ⟨_, _, rfl⟩
                simp only [hAQ]
                have hsfx : r1 <:+ rest := parse_suffix fuel rest (Option.some ')') inner r1 hok
                have hs2 : s2 <:+ r1 := by
                  have h9 := attachQuant_snd_suffix (.group inner .none) r1
                  rw [hAQ] at h9
                  exact h9
                have hbs2 : '\\' ∉ s2 := fun hx => hbs' ((hs2.trans hsfx).subset hx)
                have hrb2 : ']' ∉ s2 := fun hx => hrb' ((hs2.trans hsfx).subset hx)
                have hin2 : '[' ∈ s2 := by
                  have h9 := attachQuant_snd_mem (.group inner .none) r1 '[' hr1
                    (by decide) (by decide)
                  rw [hAQ] at h9
                  exact h9
                have hlen2 : s2.length < fuel := by
                  have h9 := hs2.length_le
                  have h10 := hsfx.length_le
                  omega
                rcases ih s2 endChar hlen2 hbs2 hrb2 hin2 hec with
                  herr2 | ⟨alts3, r3, hok3, hr3, hne0⟩
                · rw [herr2]
                  left
                  rfl
                · rw [hok3]
                  right
                  exact ⟨_, _, rfl, hr3, hne0⟩
            · have hcbs : ¬(c = '\\') := fun h9 => hbs (h9 ▸ List.mem_cons_self c rest)
              have hinr : '[' ∈ rest := by
                rcases List.mem_cons.1 hin with h9 | h9
                · exact absurd h9.symm hlb
                · exact h9
              have hstep : ∃ t0 : Token, parseAltsF (fuel + 1) (c :: rest) endChar =
                  (match attachQuant t0 rest with
                    | (tok, s2) =>
                      match parseAltsF fuel s2 endChar with
                      | .error e => .error e
                      | .ok (alts, r) => .ok (prependTok tok alts, r)) := by
                by_cases hdot : c = '.'
                · subst hdot
                  exact ⟨.dot .none, parseAltsF_dot_step fuel rest endChar hend⟩
                · exact ⟨.literal c .none,
                    parseAltsF_literal_step fuel c rest endChar hend hpipe hcbs hlb hdot hlp⟩
              obtain ⟨t0, hstep⟩ := hstep
              rw [hstep]
              obtain ⟨tok, s2, hAQ⟩ : ∃ tok s2, attachQuant t0 rest = (tok, s2) := ⟨_, _, rfl⟩
              simp only [hAQ]
              have hs2 : s2 <:+ rest := by
                have h9 := attachQuant_snd_suffix t0 rest
                rw [hAQ] at h9
                exact h9
              have hbs2 : '\\' ∉ s2 := fun hx => hbs' (hs2.subset hx)
              have hrb2 : ']' ∉ s2 := fun hx => hrb' (hs2.subset hx)
              have hin2 : '[' ∈ s2 := by
                have h9 := attachQuant_snd_mem t0 rest '[' hinr (by decide) (by decide)
                rw [hAQ] at h9
                exact h9
              have hlen2 : s2.length < fuel := by
                have h9 := hs2.length_le
                omega
              rcases ih s2 endChar hlen2 hbs2 hrb2 hin2 hec with
                herr2 | ⟨alts3, r3, hok3, hr3, hne0⟩
              · rw [herr2]
                left
                rfl
              · rw [hok3]
                right
                exact ⟨_, _, rfl, hr3, hne0⟩

/-- Inside a group, an escape-free pattern with no `[`, no `)` (so the
closing delimiter is never found) always raises `UnterminatedGroup`. -/
theorem parse_unterminated_group_some : ∀ (fuel : Nat) (s : List Char),
    s.length < fuel → '\\' ∉ s → '[' ∉ s → ')' ∉ s →
    parseAltsF fuel s (Option.some ')') = .error .unterminatedGroup := by
  intro fuel
  induction fuel with
  | zero =>
    intro s hlen _ _ _
    omega
  | succ fuel ih =>
    intro s hlen hbs hlb hrp
    match s with
    | [] => rfl
    | c :: rest =>
      have hbs' : '\\' ∉ rest := fun hx => hbs (List.mem_cons_of_mem c hx)
      have hlb' : '[' ∉ rest := fun hx => hlb (List.mem_cons_of_mem c hx)
      have hrp' : ')' ∉ rest := fun hx => hrp (List.mem_cons_of_mem c hx)
      have hlen' : rest.length < fuel := by
        simp only [List.length_cons] at hlen
        omega
      have hcbs : ¬(c = '\\') := fun h9 => hbs (h9 ▸ List.mem_cons_self c rest)
      have hclb : ¬(c = '[') := fun h9 => hlb (h9 ▸ List.mem_cons_self c rest)
      have hcrp : ¬(c = ')') := fun h9 => hrp (h9 ▸ List.mem_cons_self c rest)
      have hend : ¬(Option.some ')' = Option.some c) := by
        intro h9
        injection h9 with h10
        exact hcrp h10.symm
      by_cases hpipe : c = '|'
      · subst hpipe
        rw [parseAltsF_pipe_step fuel rest (Option.some ')') (by simp)]
        rw [ih rest hlen' hbs' hlb' hrp']
      · by_cases hlp : c = '('
        · subst hlp
          rw [parseAltsF_lparen_step fuel rest (Option.some ')') (by simp)]
          rw [ih rest hlen' hbs' hlb' hrp']
        · have hstep : ∃ t0 : Token, parseAltsF (fuel + 1) (c :: rest) (Option.some ')') =
              (match attachQuant t0 rest with
                | (tok, s2) =>
                  match parseAltsF fuel s2 (Option.some ')') with
                  | .error e => .error e
                  | .ok (alts, r) => .ok (prependTok tok alts, r)) := by
            by_cases hdot : c = '.'
            · subst hdot
              exact ⟨.dot .none, parseAltsF_dot_step fuel rest (Option.some ')') (by simp)⟩
            · exact ⟨.literal c .none,
                parseAltsF_literal_step fuel c rest (Option.some ')') hend hpipe hcbs hclb
                  hdot hlp⟩
          obtain ⟨t0, hstep⟩ := hstep
          rw [hstep]
          obtain ⟨tok, s2, hAQ⟩ : ∃ tok s2, attachQuant t0 rest = (tok, s2) := ⟨_, _, rfl⟩
          simp only [hAQ]
          have hs2 : s2 <:+ rest := by
            have h9 := attachQuant_snd_suffix t0 rest
            rw [hAQ] at h9
            exact h9
          have hlen2 : s2.length < fuel := by
            have h9 := hs2.length_le
            omega
          rw [ih s2 hlen2 (fun hx => hbs' (hs2.subset hx)) (fun hx => hlb' (hs2.subset hx))
            (fun hx => hrp' (hs2.subset hx))]

/-- At top level, an escape-free pattern with no `[`, no `)` but some `(`
always raises `UnterminatedGroup`. -/
theorem parse_unterminated_group_none : ∀ (fuel : Nat) (s : List Char),
    s.length < fuel → '\\' ∉ s → '[' ∉ s → ')' ∉ s → '(' ∈ s →
    parseAltsF fuel s Option.none = .error .unterminatedGroup := by
  intro fuel
  induction fuel with
  | zero =>
    intro s hlen _ _ _ _
    omega
  | succ fuel ih =>
    intro s hlen hbs hlb hrp hin
    match s with
    | [] => exact absurd hin (by simp)
    | c :: rest =>
      have hbs' : '\\' ∉ rest := fun hx => hbs (List.mem_cons_of_mem c hx)
      have hlb' : '[' ∉ rest := fun hx => hlb (List.mem_cons_of_mem c hx)
      have hrp' : ')' ∉ rest := fun hx => hrp (List.mem_cons_of_mem c hx)
      have hlen' : rest.length < fuel := by
        simp only [List.length_cons] at hlen
        omega
      have hcbs : ¬(c = '\\') := fun h9 => hbs (h9 ▸ List.mem_cons_self c rest)
      have hclb : ¬(c = '[') := fun h9 => hlb (h9 ▸ List.mem_cons_self c rest)
      have hend : ¬(Option.none = Option.some c) := by simp
      by_cases hpipe : c = '|'
      · subst hpipe
        rw [parseAltsF_pipe_step fuel rest Option.none (by simp)]
        have hinr : '(' ∈ rest := by
          rcases List.mem_cons.1 hin with h9 | h9
          · exact absurd h9 (by decide)
          · exact h9
        rw [ih rest hlen' hbs' hlb' hrp' hinr]
      · by_cases hlp : c = '('
        · subst hlp
          rw [parseAltsF_lparen_step fuel rest Option.none (by simp)]
          rw [parse_unterminated_group_some fuel rest hlen' hbs' hlb' hrp']
        · have hinr : '(' ∈ rest := by
            rcases List.mem_cons.1 hin with h9 | h9
            · exact absurd h9.symm hlp
            · exact h9
          have hstep : ∃ t0 : Token, parseAltsF (fuel + 1) (c :: rest) Option.none =
              (match attachQuant t0 rest with
                | (tok, s2) =>
                  match parseAltsF fuel s2 Option.none with
                  | .error e => .error e
                  | .ok (alts, r) => .ok (prependTok tok alts, r)) := by
            by_cases hdot : c = '.'
            · subst hdot
              exact ⟨.dot .none, parseAltsF_dot_step fuel rest Option.none (by simp)⟩
            · exact ⟨.literal c .none,
                parseAltsF_literal_step fuel c rest Option.none hend hpipe hcbs hclb hdot hlp⟩
          obtain ⟨t0, hstep⟩ := hstep
          rw [hstep]
          obtain ⟨tok, s2, hAQ⟩ : ∃ tok s2, attachQuant t0 rest = (tok, s2) := ⟨_, _, rfl⟩
          simp only [hAQ]
          have hs2 : s2 <:+ rest := by
            have h9 := attachQuant_snd_suffix t0 rest
            rw [hAQ] at h9
            exact h9
          have hin2 : '(' ∈ s2 := by
            have h9 := attachQuant_snd_mem t0 rest '(' hinr (by decide) (by decide)
            rw [hAQ] at h9
            exact h9
          have hlen2 : s2.length < fuel := by
            have h9 := hs2.length_le
            omega
          rw [ih s2 hlen2 (fun hx => hbs' (hs2.subset hx)) (fun hx => hlb' (hs2.subset hx))
            (fun hx => hrp' (hs2.subset hx)) hin2]

/-- An empty pattern has no bad occurrence. -/
theorem charBad_nil (a b : Char) : ¬ CharBad a b [] := by
  rintro ⟨s1, s2, heq, -⟩
  cases s1 <;> simp at heq

/-- A bad occurrence survives dropping a head character other than `a`. -/
theorem charBad_cons_elim {a b c : Char} {rest : List Char}
    (h : CharBad a b (c :: rest)) (hc : ¬(c = a)) : CharBad a b rest := by
  obtain ⟨s1, s2, heq, hnb⟩ := h
  match s1, heq with
  | [], heq =>
    injection heq with h1 h2
    exact absurd h1 hc
  | d :: t, heq =>
    injection heq with h1 h2
    exact ⟨t, s2, h2, hnb⟩

/-- Dropping a head `a`: either that occurrence itself was bad (no `b`
afterwards), or the tail still has a bad occurrence. -/
theorem charBad_cons_self_elim {a b : Char} {rest : List Char}
    (h : CharBad a b (a :: rest)) : b ∉ rest ∨ CharBad a b rest := by
  obtain ⟨s1, s2, heq, hnb⟩ := h
  match s1, heq with
  | [], heq =>
    injection heq with h1 h2
    subst h2
    exact Or.inl hnb
  | d :: t, heq =>
    injection heq with h1 h2
    exact Or.inr ⟨t, s2, h2, hnb⟩

/-- A `[` with no `]` after it survives consuming a class: it must lie
beyond the first `]`, because no `]` follows it. -/
theorem charBad_dropWhile {s : List Char} (h : CharBad '[' ']' s) (hm : ']' ∈ s) :
    CharBad '[' ']' ((s.dropWhile (fun x => x ≠ ']')).drop 1) := by
  induction s with
  | nil => exact absurd hm (by simp)
  | cons c rest ih =>
    by_cases hc : c = ']'
    · subst hc
      rw [List.dropWhile_cons_of_neg (by simp)]
      rw [List.drop_one, List.tail_cons]
      exact charBad_cons_elim h (by decide)
    · rw [List.dropWhile_cons_of_pos (by simp [hc])]
      have hm2 : ']' ∈ rest := by
        rcases List.mem_cons.1 hm with h9 | h9
        · exact absurd h9.symm hc
        · exact h9
      by_cases hcl : c = '['
      · subst hcl
        rcases charBad_cons_self_elim h with h9 | h9
        · exact absurd hm2 h9
        · exact ih h9 hm2
      · exact ih (charBad_cons_elim h hcl) hm2

/-- A bad occurrence of a non-quantifier character survives quantifier
attachment. -/
theorem charBad_attachQuant {a b : Char} (t : Token) (s : List Char)
    (h : CharBad a b s) (h1 : ¬(a = '+')) (h2 : ¬(a = '?')) :
    CharBad a b (attachQuant t s).2 := by
  match s with
  | [] => exact absurd h (charBad_nil a b)
  | c :: rest =>
    simp only [attachQuant]
    by_cases hq : c = '+' ∨ c = '?'
    · rw [if_pos hq]
      refine charBad_cons_elim h ?_
      intro hca
      rcases hq with hq | hq
      · exact h1 (by rw [← hca, hq])
      · exact h2 (by rw [← hca, hq])
    · rw [if_neg hq]
      exact h

/-- Parser step on a terminated class opener: some class token is produced
and parsing continues after the closing bracket. -/
theorem parseAltsF_class_step (fuel : Nat) (rest : List Char) (endChar : Option Char)
    (h : ¬(endChar = Option.some '[')) (hrb : ']' ∈ rest) :
    ∃ tok0 : Token, parseAltsF (fuel + 1) ('[' :: rest) endChar =
      (match attachQuant tok0 ((rest.dropWhile (fun x => x ≠ ']')).drop 1) with
        | (tok, s2) =>
          match parseAltsF fuel s2 endChar with
          | .error e => .error e
          | .ok (alts, r) => .ok (prependTok tok alts, r)) := by
  cases hcont : rest.takeWhile (fun x => x ≠ ']') with
  | nil =>
    refine ⟨Token.cls [] false Quant.none, ?_⟩
    simp only [parseAltsF, if_neg h, hrb]
    rw [hcont]
    rfl
  | cons d ds =>
    by_cases hd : d = '^'
    · subst hd
      refine ⟨Token.cls ds true Quant.none, ?_⟩
      simp only [parseAltsF, if_neg h, hrb]
      rw [hcont]
      rfl
    · refine ⟨Token.cls (d :: ds) false Quant.none, ?_⟩
      simp only [parseAltsF, if_neg h, hrb]
      rw [hcont]
      have hS : (match d :: ds with
          | '^' :: cs => Except.ok (Token.cls cs true Quant.none,
              (rest.dropWhile (fun x => x ≠ ']')).drop 1)
          | _ => Except.ok (Token.cls (d :: ds) false Quant.none,
              (rest.dropWhile (fun x => x ≠ ']')).drop 1)
          : Except ParseErr (Token × List Char))
          = Except.ok (Token.cls (d :: ds) false Quant.none,
              (rest.dropWhile (fun x => x ≠ ']')).drop 1) := by
        split
        · rename_i cs heq
          injection heq with heq1 heq2
          exact absurd heq1 hd
        · rfl
      exact congrArg (fun x : Except ParseErr (Token × List Char) =>
        match x with
        | Except.error e => Except.error e
        | Except.ok (tok0, s1) =>
          match parseAltsF fuel (attachQuant tok0 s1).2 endChar with
          | Except.error e => Except.error e
          | Except.ok (alts, r) => Except.ok (prependTok (attachQuant tok0 s1).1 alts, r)) hS

/-- In an escape-free pattern containing a `[` with no `]` anywhere after
it, parsing either raises `UnterminatedClass` or stops early at the end
character with such a `[` still unconsumed (impossible at top level). -/
theorem parse_class_bad : ∀ (fuel : Nat) (s : List Char) (endChar : Option Char),
    s.length < fuel → '\\' ∉ s → CharBad '[' ']' s →
    (endChar = Option.none ∨ endChar = Option.some ')') →
    (parseAltsF fuel s endChar = .error .unterminatedClass ∨
      (∃ alts r, parseAltsF fuel s endChar = .ok (alts, r) ∧ CharBad '[' ']' r ∧
        endChar ≠ Option.none)) := by
  intro fuel
  induction fuel with
  | zero =>
    intro s endChar hlen _ _ _
    omega
  | succ fuel ih =>
    intro s endChar hlen hbs hbad hec
    match s with
    | [] => exact absurd hbad (charBad_nil '[' ']')
    | c :: rest =>
      have hbs' : '\\' ∉ rest := fun hx => hbs (List.mem_cons_of_mem c hx)
      have hlen' : rest.length < fuel := by
        simp only [List.length_cons] at hlen
        omega
      by_cases hend : endChar = Option.some c
      · rw [parseAltsF_endchar_step fuel c rest endChar hend]
        right
        have hcr : c = ')' := by
          rcases hec with h | h
          · rw [h] at hend
            exact absurd hend (by simp)
          · rw [h] at hend
            injection hend with h10
            exact h10.symm
        have hbadr : CharBad '[' ']' rest := charBad_cons_elim hbad (by rw [hcr]; decide)
        refine ⟨_, _, rfl, hbadr, ?_⟩
        rcases hec with h | h
        · rw [h] at hend
          exact absurd hend (by simp)
        · rw [h]
          simp
      · by_cases hpipe : c = '|'
        · subst hpipe
          rw [parseAltsF_pipe_step fuel rest endChar hend]
          have hbadr : CharBad '[' ']' rest := charBad_cons_elim hbad (by decide)
          rcases ih rest endChar hlen' hbs' hbadr hec with herr | ⟨alts1, r1, hok, hr1, hne0⟩
          · rw [herr]
            left
            rfl
          · rw [hok]
            right
            exact ⟨_, _, rfl, hr1, hne0⟩
        · by_cases hlb : c = '['
          · subst hlb
            by_cases hrbm : ']' ∈ rest
            · obtain ⟨t0, hstep⟩ := parseAltsF_class_step fuel rest endChar
                (by rcases hec with h | h <;> rw [h] <;> simp) hrbm
              rw [hstep]
              obtain ⟨tok, s2, hAQ⟩ : ∃ tok s2,
                  attachQuant t0 ((rest.dropWhile (fun x => x ≠ ']')).drop 1) = (tok, s2) :=
                ⟨_, _, rfl⟩
              simp only [hAQ]
              have hbad_rest : CharBad '[' ']' rest := by
                rcases charBad_cons_self_elim hbad with h9 | h9
                · exact absurd hrbm h9
                · exact h9
              have hbad_after : CharBad '[' ']' ((rest.dropWhile (fun x => x ≠ ']')).drop 1) :=
                charBad_dropWhile hbad_rest hrbm
              have hbad_s2 : CharBad '[' ']' s2 := by
                have h9 := charBad_attachQuant t0 _ hbad_after (by decide) (by decide)
                rw [hAQ] at h9
                exact h9
              have hafter_sfx : ((rest.dropWhile (fun x => x ≠ ']')).drop 1) <:+ rest :=
                (List.drop_suffix 1 _).trans (List.dropWhile_suffix _)
              have hs2sfx : s2 <:+ rest := by
                have h9 := attachQuant_snd_suffix t0 ((rest.dropWhile (fun x => x ≠ ']')).drop 1)
                rw [hAQ] at h9
                exact h9.trans hafter_sfx
              have hbs2 : '\\' ∉ s2 := fun hx => hbs' (hs2sfx.subset hx)
              have hlen2 : s2.length < fuel := by
                have h9 := hs2sfx.length_le
                omega
              rcases ih s2 endChar hlen2 hbs2 hbad_s2 hec with
                herr2 | ⟨alts3, r3, hok3, hr3, hne0⟩
              · rw [herr2]
                left
                rfl
              · rw [hok3]
                right
                exact ⟨_, _, rfl, hr3, hne0⟩
            · rw [parseAltsF_class_unterminated fuel rest endChar
                (by rcases hec with h | h <;> rw [h] <;> simp) hrbm]
              left
              rfl
          · by_cases hlp : c = '('
            · subst hlp
              rw [parseAltsF_lparen_step fuel rest endChar
                (by rcases hec with h | h <;> rw [h] <;> simp)]
              have hbadr : CharBad '[' ']' rest := charBad_cons_elim hbad (by decide)
              rcases ih rest (Option.some ')') hlen' hbs' hbadr (Or.inr rfl) with
                herr | ⟨inner, r1, hok, hr1, _⟩
              · rw [herr]
                left
                rfl
              · rw [hok]
                obtain ⟨tok, s2, hAQ⟩ : ∃ tok s2, attachQuant (.group inner .none) r1
                    = (tok, s2) := ⟨_, _, rfl⟩
                simp only [hAQ]
                have hsfx : r1 <:+ rest := parse_suffix fuel rest (Option.some ')') inner r1 hok
                have hs2 : s2 <:+ r1 := by
                  have h9 := attachQuant_snd_suffix (.group inner .none) r1
                  rw [hAQ] at h9
                  exact h9
                have hbs2 : '\\' ∉ s2 := fun hx => hbs' ((hs2.trans hsfx).subset hx)
                have hbad_s2 : CharBad '[' ']' s2 := by
                  have h9 := charBad_attachQuant (Token.group inner Quant.none) r1 hr1
                    (by decide) (by decide)
                  rw [hAQ] at h9
                  exact h9
                have hlen2 : s2.length < fuel := by
                  have h9 := hs2.length_le
                  have h10 := hsfx.length_le
                  omega
                rcases ih s2 endChar hlen2 hbs2 hbad_s2 hec with
                  herr2 | ⟨alts3, r3, hok3, hr3, hne0⟩
                · rw [herr2]
                  left
                  rfl
                · rw [hok3]
                  right
                  exact ⟨_, _, rfl, hr3, hne0⟩
            · have hcbs : ¬(c = '\\') := fun h9 => hbs (h9 ▸ List.mem_cons_self c rest)
              have hbadr : CharBad '[' ']' rest := charBad_cons_elim hbad hlb
              have hstep : ∃ t0 : Token, parseAltsF (fuel + 1) (c :: rest) endChar =
                  (match attachQuant t0 rest with
                    | (tok, s2) =>
                      match parseAltsF fuel s2 endChar with
                      | .error e => .error e
                      | .ok (alts, r) => .ok (prependTok tok alts, r)) := by
                by_cases hdot : c = '.'
                · subst hdot
                  exact ⟨.dot .none, parseAltsF_dot_step fuel rest endChar hend⟩
                · exact ⟨.literal c .none,
                    parseAltsF_literal_step fuel c rest endChar hend hpipe hcbs hlb hdot hlp⟩
              obtain ⟨t0, hstep⟩ := hstep
              rw [hstep]
              obtain ⟨tok, s2, hAQ⟩ : ∃ tok s2, attachQuant t0 rest = (tok, s2) := ⟨_, _, rfl⟩
              simp only [hAQ]
              have hs2 : s2 <:+ rest := by
                have h9 := attachQuant_snd_suffix t0 rest
                rw [hAQ] at h9
                exact h9
              have hbs2 : '\\' ∉ s2 := fun hx => hbs' (hs2.subset hx)
              have hbad_s2 : CharBad '[' ']' s2 := by
                have h9 := charBad_attachQuant t0 rest hbadr (by decide) (by decide)
                rw [hAQ] at h9
                exact h9
              have hlen2 : s2.length < fuel := by
                have h9 := hs2.length_le
                omega
              rcases ih s2 endChar hlen2 hbs2 hbad_s2 hec with
                herr2 | ⟨alts3, r3, hok3, hr3, hne0⟩
              · rw [herr2]
                left
                rfl
              · rw [hok3]
                right
                exact ⟨_, _, rfl, hr3, hne0⟩

/-- In an escape-free, class-free pattern containing a `(` with no `)`
anywhere after it, parsing either raises `UnterminatedGroup` or stops early
at the end character with such a `(` still unconsumed (impossible at top
level). -/
theorem parse_group_bad : ∀ (fuel : Nat) (s : List Char) (endChar : Option Char),
    s.length < fuel → '\\' ∉ s → '[' ∉ s → CharBad '(' ')' s →
    (endChar = Option.none ∨ endChar = Option.some ')') →
    (parseAltsF fuel s endChar = .error .unterminatedGroup ∨
      (∃ alts r, parseAltsF fuel s endChar = .ok (alts, r) ∧ CharBad '(' ')' r ∧
        endChar ≠ Option.none)) := by
  intro fuel
  induction fuel with
  | zero =>
    intro s endChar hlen _ _ _ _
    omega
  | succ fuel ih =>
    intro s endChar hlen hbs hlb hbad hec
    match s with
    | [] => exact absurd hbad (charBad_nil '(' ')')
    | c :: rest =>
      have hbs' : '\\' ∉ rest := fun hx => hbs (List.mem_cons_of_mem c hx)
      have hlb' : '[' ∉ rest := fun hx => hlb (List.mem_cons_of_mem c hx)
      have hlen' : rest.length < fuel := by
        simp only [List.length_cons] at hlen
        omega
      by_cases hend : endChar = Option.some c
      · rw [parseAltsF_endchar_step fuel c rest endChar hend]
        right
        have hcr : c = ')' := by
          rcases hec with h | h
          · rw [h] at hend
            exact absurd hend (by simp)
          · rw [h] at hend
            injection hend with h10
            exact h10.symm
        have hbadr : CharBad '(' ')' rest := charBad_cons_elim hbad (by rw [hcr]; decide)
        refine ⟨_, _, rfl, hbadr, ?_⟩
        rcases hec with h | h
        · rw [h] at hend
          exact absurd hend (by simp)
        · rw [h]
          simp
      · by_cases hpipe : c = '|'
        · subst hpipe
          rw [parseAltsF_pipe_step fuel rest endChar hend]
          have hbadr : CharBad '(' ')' rest := charBad_cons_elim hbad (by decide)
          rcases ih rest endChar hlen' hbs' hlb' hbadr hec with herr | ⟨alts1, r1, hok, hr1, hne0⟩
          · rw [herr]
            left
            rfl
          · rw [hok]
            right
            exact ⟨_, _, rfl, hr1, hne0⟩
        · by_cases hlp : c = '('
          · subst hlp
            rw [parseAltsF_lparen_step fuel rest endChar
              (by rcases hec with h | h <;> rw [h] <;> simp)]
            rcases charBad_cons_self_elim hbad with hnrp | hbadr
            · rw [parse_unterminated_group_some fuel rest hlen' hbs' hlb' hnrp]
              left
              rfl
            · rcases ih rest (Option.some ')') hlen' hbs' hlb' hbadr (Or.inr rfl) with
                herr | ⟨inner, r1, hok, hr1, _⟩
              · rw [herr]
                left
                rfl
              · rw [hok]
                obtain ⟨tok, s2, hAQ⟩ : ∃ tok s2, attachQuant (.group inner .none) r1
                    = (tok, s2) := ⟨_, _, rfl⟩
                simp only [hAQ]
                have hsfx : r1 <:+ rest := parse_suffix fuel rest (Option.some ')') inner r1 hok
                have hs2 : s2 <:+ r1 := by
                  have h9 := attachQuant_snd_suffix (.group inner .none) r1
                  rw [hAQ] at h9
                  exact h9
                have hbs2 : '\\' ∉ s2 := fun hx => hbs' ((hs2.trans hsfx).subset hx)
                have hlb2 : '[' ∉ s2 := fun hx => hlb' ((hs2.trans hsfx).subset hx)
                have hbad_s2 : CharBad '(' ')' s2 := by
                  have h9 := charBad_attachQuant (Token.group inner Quant.none) r1 hr1
                    (by decide) (by decide)
                  rw [hAQ] at h9
                  exact h9
                have hlen2 : s2.length < fuel := by
                  have h9 := hs2.length_le
                  have h10 := hsfx.length_le
                  omega
                rcases ih s2 endChar hlen2 hbs2 hlb2 hbad_s2 hec with
                  herr2 | ⟨alts3, r3, hok3, hr3, hne0⟩
                · rw [herr2]
                  left
                  rfl
                · rw [hok3]
                  right
                  exact ⟨_, _, rfl, hr3, hne0⟩
          · have hcbs : ¬(c = '\\') := fun h9 => hbs (h9 ▸ List.mem_cons_self c rest)
            have hclb : ¬(c = '[') := fun h9 => hlb (h9 ▸ List.mem_cons_self c rest)
            have hbadr : CharBad '(' ')' rest := charBad_cons_elim hbad hlp
            have hstep : ∃ t0 : Token, parseAltsF (fuel + 1) (c :: rest) endChar =
                (match attachQuant t0 rest with
                  | (tok, s2) =>
                    match parseAltsF fuel s2 endChar with
                    | .error e => .error e
                    | .ok (alts, r) => .ok (prependTok tok alts, r)) := by
              by_cases hdot : c = '.'
              · subst hdot
                exact ⟨.dot .none, parseAltsF_dot_step fuel rest endChar hend⟩
              · exact ⟨.literal c .none,
                  parseAltsF_literal_step fuel c rest endChar hend hpipe hcbs hclb hdot hlp⟩
            obtain ⟨t0, hstep⟩ := hstep
            rw [hstep]
            obtain ⟨tok, s2, hAQ⟩ : ∃ tok s2, attachQuant t0 rest = (tok, s2) := ⟨_, _, rfl⟩
            simp only [hAQ]
            have hs2 : s2 <:+ rest := by
              have h9 := attachQuant_snd_suffix t0 rest
              rw [hAQ] at h9
              exact h9
            have hbs2 : '\\' ∉ s2 := fun hx => hbs' (hs2.subset hx)
            have hlb2 : '[' ∉ s2 := fun hx => hlb' (hs2.subset hx)
            have hbad_s2 : CharBad '(' ')' s2 := by
              have h9 := charBad_attachQuant t0 rest hbadr (by decide) (by decide)
              rw [hAQ] at h9
              exact h9
            have hlen2 : s2.length < fuel := by
              have h9 := hs2.length_le
              omega
            rcases ih s2 endChar hlen2 hbs2 hlb2 hbad_s2 hec with
              herr2 | ⟨alts3, r3, hok3, hr3, hne0⟩
            · rw [herr2]
              left
              rfl
            · rw [hok3]
              right
              exact ⟨_, _, rfl, hr3, hne0⟩

/-- C6 (amended): errors arise only during compilation.  For an escape-free
pattern containing a `[` with no `]` anywhere after it, compilation fails
with `UnterminatedClass` (e.g. `compile("[abc")`, `compile("]ab[")`); for
an escape-free, class-free pattern containing a `(` with no `)` anywhere
after it, compilation fails with `UnterminatedGroup` (e.g.
`compile("(abc")`, `compile("(a)(")`); whenever compilation succeeds
matching returns a boolean, and every error of `match_pattern` is exactly a
compilation error.  (The restriction to escape-free patterns is forced by
the escape quirk, see the counterexample: `\[` is a literal.) -/
theorem claim_C6 :
    (∀ p : List Char, '\\' ∉ p → CharBad '[' ']' p →
      parsePattern p = .error .unterminatedClass)
    ∧ parsePattern "[abc".toList = .error .unterminatedClass
    ∧ (∀ p : List Char, '\\' ∉ p → '[' ∉ p → CharBad '(' ')' p →
      parsePattern p = .error .unterminatedGroup)
    ∧ parsePattern "(abc".toList = .error .unterminatedGroup
    ∧ (∀ (input pattern : List Char) (toks : Sequence),
      parsePattern (coreOf pattern) = .ok toks →
      matchPattern input pattern
        = .ok (matchesTokens input (anchoredStart pattern) (anchoredEnd (stripStart pattern))
            toks))
    ∧ (∀ (input pattern : List Char) (e : ParseErr),
      matchPattern input pattern = .error e → parsePattern (coreOf pattern) = .error e) := by
  refine ⟨?_, rfl, ?_, rfl, ?_, ?_⟩
  · intro p h1 h2
    unfold parsePattern
    rcases parse_class_bad (p.length + 1) p Option.none (by omega) h1 h2 (Or.inl rfl) with
      herr | ⟨alts, r, hok, _, hne0⟩
    · rw [herr]
    · exact absurd rfl hne0
  · intro p h1 h2 h3
    unfold parsePattern
    rcases parse_group_bad (p.length + 1) p Option.none (by omega) h1 h2 h3 (Or.inl rfl) with
      herr | ⟨alts, r, hok, _, hne0⟩
    · rw [herr]
    · exact absurd rfl hne0
  · intro input pattern toks hp
    unfold matchPattern
    rw [hp]
  · intro input pattern e h
    unfold matchPattern at h
    split at h
    · rename_i e2 heq
      injection h with h1
      subst h1
      exact heq
    · exact absurd h (by simp)

/-- Witness for the amended C6 at concrete inputs (the positional
conditions cover `[`s and `(`s that are not the first of their kind:
`"]ab["` and `"(a)("`). -/
theorem claim_C6_witness :
    parsePattern [']', 'a', 'b', '['] = .error .unterminatedClass
    ∧ parsePattern ['(', 'a', ')', '('] = .error .unterminatedGroup
    ∧ parsePattern (coreOf "(ab".toList) = .error .unterminatedGroup :=
  ⟨claim_C6.1 [']', 'a', 'b', '['] (by decide) ⟨[']', 'a', 'b'], [], rfl, by decide⟩,
   claim_C6.2.2.1 ['(', 'a', ')', '('] (by decide) (by decide)
     ⟨['(', 'a', ')'], [], rfl, by decide⟩,
   claim_C6.2.2.2.2.2 "xyz".toList "(ab".toList .unterminatedGroup rfl⟩

/-- Counterexample to C6 as stated: `\[abc` contains a `[` with no `]`
anywhere after it, yet it compiles successfully (the backslash makes the
`[` a literal), so "a pattern that contains a `[` with no `]` anywhere
after it fails with `UnterminatedClass`" is false as a universal claim. -/
theorem claim_C6_counterexample :
    ('[' ∈ "\\[abc".toList) ∧ (']' ∉ "\\[abc".toList)
    ∧ parsePattern "\\[abc".toList
        = .ok (.cons (.literal '[' .none) (.cons (.literal 'a' .none)
            (.cons (.literal 'b' .none) (.cons (.literal 'c' .none) .nil)))) :=
  ⟨by decide, by decide, rfl⟩
